import Mathlib

/-!
# DyClee — verification of the streaming clustering engine against its specification

The repository's notebooks under `src/` drive a `SerialDyClee` engine
(`DyClee.algorithms`) whose implementation is not part of `src/`; only its
callers are.  Following the specification (spec.md §§3–4, 4.1–4.6), the engine
is modelled here as executable Lean definitions over `ℚ`-valued samples:
the context grid (addresses, Moore reachability, face adjacency), microclusters
with sufficient statistics, the per-sample distance stage (candidate selection,
assimilation, re-address merging, outlier eviction), the periodic density stage
(threshold classification and BFS label propagation), the pyramidal snapshot
store, and the facade (`ingest` with out-of-order rejection, `run_dataset`).
-/

/-- Modelled from the spec (§3.2): the three density classes of a microcluster.
The implementation (`DyClee.algorithms`, absent from `src/`) represents them as
the strings "Dense", "Semi-Dense", "Low-Density" (see `src/snapshot_plot_2.ipynb`). -/
inductive DensityType where
  | Dense
  | SemiDense
  | LowDensity
deriving DecidableEq, Repr

/-- Modelled from the spec (§3.2): a microcluster's sufficient statistic.
`Classk = none` is the sentinel "Unclassed". -/
structure MicroCluster where
  id : ℕ
  n : ℕ
  LS : List ℚ
  t_start : ℕ
  t_last : ℕ
  density_type : DensityType
  Classk : Option ℕ
  grid_addr : List ℤ
deriving DecidableEq, Repr

/-- Center of a microcluster: `LS / n` (spec §3.2). -/
def MicroCluster.center (u : MicroCluster) : List ℚ :=
  u.LS.map (fun s => s / (u.n : ℚ))

/-- Modelled from the spec (§4.4 Step 1): a microcluster's density `n / V`
where `V` is the hyperbox volume over continuous dimensions. -/
def density (V : ℚ) (u : MicroCluster) : ℚ := (u.n : ℚ) / V

/-- Mean of a list of densities (0 on the empty list). -/
def meanD (l : List ℚ) : ℚ := l.sum / (l.length : ℚ)

/-- Maximum of a list of densities (0 on the empty list). -/
def maxD : List ℚ → ℚ
  | [] => 0
  | x :: xs => xs.foldl max x

/-- Modelled from the spec (§4.4 Step 1): the upper density threshold
`D_hi = mean_D + (max_D − mean_D)/2`; the lower threshold `D_lo` is `meanD`. -/
def dHi (l : List ℚ) : ℚ := meanD l + (maxD l - meanD l) / 2

/-- Modelled from the spec (§4.4 Step 1): density classification by the two
thresholds — `density ≥ D_hi → Dense`, `D_lo ≤ density < D_hi → Semi-Dense`,
`density < D_lo → Low-Density`. -/
def classifyDensity (dens dlo dhi : ℚ) : DensityType :=
  if dhi ≤ dens then .Dense
  else if dlo ≤ dens then .SemiDense
  else .LowDensity

/-- Modelled from the spec (§4.4 Step 1): recompute every live microcluster's
density class from the global thresholds and reset `Classk` to "Unclassed". -/
def classifyStep (V : ℚ) (pool : List MicroCluster) : List MicroCluster :=
  let dens := pool.map (density V)
  let dlo := meanD dens
  let dhi := dHi dens
  pool.map (fun u =>
    { u with density_type := classifyDensity (density V u) dlo dhi, Classk := none })

instance : Inhabited MicroCluster :=
  ⟨⟨0, 0, [], 0, 0, .LowDensity, none, []⟩⟩

/-- Modelled from the spec (§3.1, §4.1): the immutable bounding context of the
stream: `phi`, per-dimension `lo`/`hi` bounds and the ordinal mask. -/
structure GridContext where
  phi : ℚ
  lo : List ℚ
  hi : List ℚ
  ordinal : List Bool
deriving DecidableEq, Repr

/-- Derived hyperbox side lengths `side[i] = phi · (hi[i] − lo[i])` (spec §3.1). -/
def GridContext.side (c : GridContext) : List ℚ :=
  List.zipWith (fun l h => c.phi * (h - l)) c.lo c.hi

/-- Hyperbox volume: product of the sides over continuous dimensions (spec §3.1). -/
def GridContext.volume (c : GridContext) : ℚ :=
  (List.zipWith (fun (o : Bool) (s : ℚ) => if o then (1 : ℚ) else s) c.ordinal c.side).prod

/-- Truncation of a rational toward zero, the `int(·)` cast used for ordinal
dimensions (spec §4.1). -/
def ratTrunc (x : ℚ) : ℤ := if 0 ≤ x then ⌊x⌋ else -⌊-x⌋

/-- Grid coordinate of one dimension: `⌊(x − lo) / side⌋` for a continuous
dimension, the integer cast for an ordinal one (spec §4.1). -/
def addressDim (o : Bool) (l s x : ℚ) : ℤ :=
  if o then ratTrunc x else ⌊(x - l) / s⌋

/-- Componentwise address computation over the four per-dimension lists. -/
def addressGo : List Bool → List ℚ → List ℚ → List ℚ → List ℤ
  | o :: os, l :: ls, s :: ss, x :: xs => addressDim o l s x :: addressGo os ls ss xs
  | _, _, _, _ => []

/-- Modelled from the spec (§4.1): `address(point)` in the hyperbox grid. -/
def GridContext.address (c : GridContext) (x : List ℚ) : List ℤ :=
  addressGo c.ordinal c.lo c.side x

/-- Componentwise Moore-neighborhood test: `|a − b| ≤ 1` on continuous
dimensions, equality on ordinal ones (spec §4.1). -/
def reachableDims : List Bool → List ℤ → List ℤ → Bool
  | [], [], [] => true
  | o :: os, x :: xs, y :: ys =>
      (if o then x == y else decide ((x - y).natAbs ≤ 1)) && reachableDims os xs ys
  | _, _, _ => false

/-- Modelled from the spec (§4.1): `reachable(addr_a, addr_b)` — Moore
neighborhood with ordinal equality. -/
def GridContext.reachable (c : GridContext) (a b : List ℤ) : Bool :=
  reachableDims c.ordinal a b

/-- Number of dimensions on which two addresses differ. -/
def diffCount : List ℤ → List ℤ → ℕ
  | x :: xs, y :: ys => (if x = y then 0 else 1) + diffCount xs ys
  | _, _ => 0

/-- Modelled from the spec (§4.1): `direct(addr_a, addr_b)` — `reachable` and
at most one dimension differs (face adjacency, not corner adjacency). -/
def GridContext.direct (c : GridContext) (a b : List ℤ) : Bool :=
  c.reachable a b && decide (diffCount a b ≤ 1)

/-- Pointwise update of a label assignment on indices of the active list. -/
def setLabel (labels : ℕ → Option ℕ) (v k : ℕ) : ℕ → Option ℕ :=
  fun i => if i = v then some k else labels i

/-- Face adjacency of two entries of the active list (by index). -/
def Adj (c : GridContext) (A : List MicroCluster) (i j : ℕ) : Prop :=
  c.direct (A.getD i default).grid_addr (A.getD j default).grid_addr = true

instance (c : GridContext) (A : List MicroCluster) (i j : ℕ) :
    Decidable (Adj c A i j) := by
  rw [Adj]
  infer_instance

/-- Modelled from the spec (§4.4 Step 2): process the popped microcluster `u` —
label every unlabeled `direct` neighbor `v` with `k`, enqueueing `v` only when
it is Dense (a Semi-Dense neighbor is labeled but not enqueued). -/
def labelNeighbors (c : GridContext) (A : List MicroCluster) (u k : ℕ) :
    List ℕ → (ℕ → Option ℕ) × List ℕ → (ℕ → Option ℕ) × List ℕ
  | [], st => st
  | v :: vs, st =>
      if (st.1 v) = none ∧ Adj c A u v then
        labelNeighbors c A u k vs
          (setLabel st.1 v k,
            if (A.getD v default).density_type = .Dense then st.2 ++ [v] else st.2)
      else labelNeighbors c A u k vs st

/-- Modelled from the spec (§4.4 Step 2): the BFS worklist loop for one label
`k`; the fuel argument bounds the number of pops (each index is enqueued at
most once, so `A.length + 1` pops suffice). -/
def bfsLoop (c : GridContext) (A : List MicroCluster) (k : ℕ) :
    ℕ → (ℕ → Option ℕ) → List ℕ → (ℕ → Option ℕ)
  | 0, labels, _ => labels
  | _ + 1, labels, [] => labels
  | fuel + 1, labels, u :: rest =>
      let st := labelNeighbors c A u k (List.range A.length) (labels, rest)
      bfsLoop c A k fuel st.1 st.2

/-- Modelled from the spec (§4.4 Step 2): outer loop over the Dense seeds; an
already-labeled seed is skipped, an unlabeled one starts a fresh label. -/
def labelSeeds (c : GridContext) (A : List MicroCluster) :
    List ℕ → (ℕ → Option ℕ) → ℕ → (ℕ → Option ℕ)
  | [], labels, _ => labels
  | s :: rest, labels, k =>
      match labels s with
      | some _ => labelSeeds c A rest labels k
      | none =>
          labelSeeds c A rest
            (bfsLoop c A (k + 1) (A.length + 1) (setLabel labels s (k + 1)) [s]) (k + 1)

/-- Seed ordering: descending density, ties broken by ascending id (spec §4.4). -/
def seedLess (V : ℚ) (A : List MicroCluster) (i j : ℕ) : Bool :=
  decide (density V (A.getD j default) < density V (A.getD i default) ∨
    (density V (A.getD i default) = density V (A.getD j default) ∧
      (A.getD i default).id ≤ (A.getD j default).id))

/-- Stable insertion of an index into a list sorted by `le`. -/
def insertSorted (le : ℕ → ℕ → Bool) (x : ℕ) : List ℕ → List ℕ
  | [] => [x]
  | y :: ys => if le x y then x :: y :: ys else y :: insertSorted le x ys

/-- Stable insertion sort by `le`. -/
def sortBy (le : ℕ → ℕ → Bool) : List ℕ → List ℕ
  | [] => []
  | x :: xs => insertSorted le x (sortBy le xs)

/-- Modelled from the spec (§4.4 Step 2): the Dense indices of `A`, sorted by
descending density with ascending-id tie break. -/
def seedOrder (V : ℚ) (A : List MicroCluster) : List ℕ :=
  sortBy (seedLess V A)
    ((List.range A.length).filter
      (fun i => decide ((A.getD i default).density_type = .Dense)))

/-- Modelled from the spec (§4.4 Step 2): the complete label assignment pass. -/
def labelStage (c : GridContext) (V : ℚ) (A : List MicroCluster) : ℕ → Option ℕ :=
  labelSeeds c A (seedOrder V A) (fun _ => none) 0

/-- Write the computed labels into the `Classk` field, starting at index `i0`. -/
def applyLabelsGo (labels : ℕ → Option ℕ) : List MicroCluster → ℕ → List MicroCluster
  | [], _ => []
  | u :: us, i => { u with Classk := labels i } :: applyLabelsGo labels us (i + 1)

/-- Write the computed labels into the `Classk` field of the active list. -/
def applyLabels (A : List MicroCluster) (labels : ℕ → Option ℕ) : List MicroCluster :=
  applyLabelsGo labels A 0

/-- Modelled from the spec (§4.4): the full density stage — classify by
thresholds, rebuild `A` (Dense ∪ Semi-Dense) and `O` (Low-Density), then label
`A` by BFS over direct connectivity from Dense seeds. -/
def densityStage (c : GridContext) (pool : List MicroCluster) :
    List MicroCluster × List MicroCluster :=
  let cls := classifyStep c.volume pool
  let A := cls.filter (fun u => decide (u.density_type = .Dense ∨ u.density_type = .SemiDense))
  let O := cls.filter (fun u => decide (u.density_type = .LowDensity))
  (applyLabels A (labelStage c c.volume A), O)

/-- A witnessing face-adjacency path for a shared label: a nonempty list of
indices into the active list, every member labeled `k`, consecutive members
face-adjacent, and at least one member Dense. -/
def LabelPath (c : GridContext) (A : List MicroCluster) (labels : ℕ → Option ℕ)
    (k i j : ℕ) : Prop :=
  ∃ p : List ℕ, p.head? = some i ∧ p.getLast? = some j ∧
    (∀ m ∈ p, m < A.length ∧ labels m = some k) ∧
    List.Chain' (Adj c A) p ∧ ∃ m ∈ p, (A.getD m default).density_type = .Dense

/-- Every labeled index is in range of the active list. -/
def LabelsInRange (A : List MicroCluster) (labels : ℕ → Option ℕ) : Prop :=
  ∀ i k, labels i = some k → i < A.length

/-- Any two indices carrying the same label are joined by a `LabelPath`. -/
def LabelsConnected (c : GridContext) (A : List MicroCluster)
    (labels : ℕ → Option ℕ) : Prop :=
  ∀ k i j, labels i = some k → labels j = some k → LabelPath c A labels k i j

/-- All assigned labels are at most `k`. -/
def LabelsBounded (labels : ℕ → Option ℕ) (k : ℕ) : Prop :=
  ∀ i k', labels i = some k' → k' ≤ k

/-- Every queued index is labeled with the current label and Dense. -/
def QueueOk (_c : GridContext) (A : List MicroCluster) (labels : ℕ → Option ℕ)
    (k : ℕ) (q : List ℕ) : Prop :=
  ∀ u ∈ q, labels u = some k ∧ (A.getD u default).density_type = .Dense

/-- The active list rebuilt by the density stage (Dense ∪ Semi-Dense). -/
def activeList (c : GridContext) (pool : List MicroCluster) : List MicroCluster :=
  (classifyStep c.volume pool).filter
    (fun u => decide (u.density_type = .Dense ∨ u.density_type = .SemiDense))

/-- Squared Euclidean distance between two vectors (its minimizers coincide
with those of the Euclidean distance). -/
def dist2 : List ℚ → List ℚ → ℚ
  | x :: xs, y :: ys => (x - y) ^ 2 + dist2 xs ys
  | _, _ => 0

/-- Strict preference between assimilation candidates: strictly closer to the
sample, or equally close and strictly older (spec §4.3 step 3). -/
def closerCandidate (x : List ℚ) (v u : MicroCluster) : Bool :=
  decide (dist2 v.center x < dist2 u.center x ∨
    (dist2 v.center x = dist2 u.center x ∧ v.t_start < u.t_start))

/-- Modelled from the spec (§4.3 step 3): pick the candidate minimizing the
Euclidean distance between its center and the sample, ties broken by older
`t_start`. -/
def selectCandidate (x : List ℚ) : List MicroCluster → Option MicroCluster
  | [] => none
  | u :: us => some (us.foldl (fun best v => if closerCandidate x v best then v else best) u)

/-- Modelled from the spec (§4.2): `assimilate(sample, t)` — `LS += sample`,
`n += 1`, `t_last = t`; the grid address is recomputed by address maintenance. -/
def MicroCluster.assimilate (u : MicroCluster) (x : List ℚ) (t : ℕ) : MicroCluster :=
  { u with LS := List.zipWith (· + ·) u.LS x, n := u.n + 1, t_last := t }

/-- The assimilated microcluster with its grid address recomputed from the
updated center (spec §4.3 step 5). -/
def readdressed (c : GridContext) (u : MicroCluster) (x : List ℚ) (t : ℕ) : MicroCluster :=
  let u1 := u.assimilate x t
  { u1 with grid_addr := c.address u1.center }

/-- Modelled from the spec (§4.3 step 5): the absorbing merge — `LS += LS'`,
`n += n'`, `t_last = max(t_last, t_last')`; `id`, `t_start` and the grid
address stay the absorber's. -/
def mergeInto (a b : MicroCluster) : MicroCluster :=
  { a with
    LS := List.zipWith (· + ·) a.LS b.LS
    n := a.n + b.n
    t_last := max a.t_last b.t_last }

/-- Modelled from the spec (§4.3 step 5): the older (smaller `t_start`)
microcluster absorbs the younger; returns the merged microcluster and the id
of the destroyed one. -/
def resolveMerge (u other : MicroCluster) : MicroCluster × ℕ :=
  if u.t_start ≤ other.t_start then (mergeInto u other, other.id)
  else (mergeInto other u, u.id)

/-- Modelled from the spec (§4.6, §3.5): one stored snapshot — pyramidal order,
capture timestamp, the labeled final clusters and a copy of the population. -/
structure SnapshotEntry where
  order : ℕ
  timestamp : ℕ
  final : List MicroCluster
  all : List MicroCluster
deriving DecidableEq, Repr

/-- Modelled from the spec (§2, §4.5): the engine state — context, density
period `t_global`, pyramidal base `alpha` and order cap `cap`, the last
accepted timestamp, the id counter, the Active and Outlier lists, and the
snapshot store. -/
structure Engine where
  ctx : GridContext
  t_global : ℕ
  alpha : ℕ
  cap : ℕ
  last_t : Option ℕ
  next_id : ℕ
  A_list : List MicroCluster
  O_list : List MicroCluster
  snapshots : List SnapshotEntry
deriving Repr

/-- The live population: `A ∪ O` (spec §3.3). -/
def livePool (e : Engine) : List MicroCluster := e.A_list ++ e.O_list

/-- Modelled from the spec (§4.3 step 2): all live microclusters whose grid
address is reachable (Moore neighborhood) from the sample's address. -/
def candidates (c : GridContext) (pool : List MicroCluster) (addr : List ℤ) :
    List MicroCluster :=
  pool.filter (fun u => c.reachable addr u.grid_addr)

/-- Replace the list entry carrying `u.id` by `u`. -/
def replaceById (u : MicroCluster) : List MicroCluster → List MicroCluster :=
  List.map (fun w => if w.id = u.id then u else w)

/-- Destroy the microcluster with id `i`. -/
def removeById (i : ℕ) : List MicroCluster → List MicroCluster :=
  List.filter (fun w => decide (w.id ≠ i))

/-- Modelled from the spec (§4.3 steps 3 and 5): assimilate the sample into the
chosen microcluster, recompute its grid address, and on a collision with
another live microcluster merge the two (the older absorbs the younger). -/
def assimilateInto (e : Engine) (chosen : MicroCluster) (x : List ℚ) (t : ℕ) :
    Engine × ℕ :=
  let u2 := readdressed e.ctx chosen x t
  if u2.grid_addr = chosen.grid_addr then
    ({ e with A_list := replaceById u2 e.A_list, O_list := replaceById u2 e.O_list },
      chosen.id)
  else
    match (livePool e).find? (fun w =>
        decide (w.id ≠ chosen.id) && decide (w.grid_addr = u2.grid_addr)) with
    | some other =>
        let m := resolveMerge u2 other
        ({ e with
            A_list := removeById m.2 (replaceById m.1 e.A_list),
            O_list := removeById m.2 (replaceById m.1 e.O_list) },
          m.1.id)
    | none =>
        ({ e with A_list := replaceById u2 e.A_list, O_list := replaceById u2 e.O_list },
          chosen.id)

/-- Modelled from the spec (§4.3 step 4): the freshly created microcluster for
an unassimilable sample — `LS = x`, `n = 1`, `t_start = t_last = t`,
Low-Density, "Unclassed", registered under `address(x)`. -/
def newMicroCluster (e : Engine) (x : List ℚ) (t : ℕ) : MicroCluster :=
  { id := e.next_id, n := 1, LS := x, t_start := t, t_last := t,
    density_type := .LowDensity, Classk := none, grid_addr := e.ctx.address x }

/-- Modelled from the spec (§4.3 steps 1–5): route the sample to the nearest
reachable candidate, or create a new Low-Density microcluster appended to `O`;
returns the id of the microcluster holding the sample. -/
def distanceStageCore (e : Engine) (x : List ℚ) (t : ℕ) : Engine × ℕ :=
  match selectCandidate x (candidates e.ctx (livePool e) (e.ctx.address x)) with
  | some chosen => assimilateInto e chosen x t
  | none =>
      ({ e with
          O_list := e.O_list ++ [newMicroCluster e x t]
          next_id := e.next_id + 1 },
        e.next_id)

/-- Modelled from the spec (§4.3 step 6): destroy every outlier with
`t − t_last ≥ t_global`. -/
def evictOutliers (e : Engine) (t : ℕ) : Engine :=
  { e with O_list := e.O_list.filter (fun u => decide (t - u.t_last < e.t_global)) }

/-- Modelled from the spec (§4.3): the complete distance stage — routing,
address maintenance, then outlier eviction. -/
def distanceStage (e : Engine) (x : List ℚ) (t : ℕ) : Engine × ℕ :=
  let r := distanceStageCore e x t
  (evictOutliers r.1 t, r.2)

/-- Modelled from the spec (§4.4): the density stage run on the engine state. -/
def densityStageE (e : Engine) : Engine :=
  let r := densityStage e.ctx (livePool e)
  { e with A_list := r.1, O_list := r.2 }

/-- Modelled from the spec (§4.6): the pyramidal tier of timestamp `t` — the
largest `ℓ` with `t mod α^ℓ = 0`, capped at `L`. -/
def snapTier (alpha cap t : ℕ) : ℕ :=
  (List.range (cap + 1)).foldl (fun acc l => if t % alpha ^ l = 0 then l else acc) 0

/-- Modelled from the spec (§4.6): tier `ℓ` retains at most `α^ℓ + 1` snapshots. -/
def tierCap (alpha l : ℕ) : ℕ := alpha ^ l + 1

/-- Number of stored snapshots of tier `l`. -/
def tierCount (l : ℕ) (snaps : List SnapshotEntry) : ℕ :=
  snaps.countP (fun s => decide (s.order = l))

/-- Drop the oldest stored snapshot of tier `l` (entries are kept in capture
order, oldest first). -/
def dropOldest (l : ℕ) : List SnapshotEntry → List SnapshotEntry
  | [] => []
  | s :: rest => if s.order = l then rest else s :: dropOldest l rest

/-- Modelled from the spec (§4.6): record a snapshot at timestamp `t` under its
pyramidal tier, evicting the oldest snapshot of that tier beyond the tier's
retention cap. -/
def snapInsert (alpha cap t : ℕ) (fin all : List MicroCluster)
    (snaps : List SnapshotEntry) : List SnapshotEntry :=
  let l := snapTier alpha cap t
  let snaps1 := snaps ++ [⟨l, t, fin, all⟩]
  if tierCap alpha l < tierCount l snaps1 then dropOldest l snaps1 else snaps1

/-- Modelled from the spec (§4.6): after a density stage at timestamp `t`,
capture `{final: A filtered to labeled μCs, all: copy of A ∪ O}`. -/
def snapshotCapture (e : Engine) (t : ℕ) : Engine :=
  { e with
    snapshots :=
      snapInsert e.alpha e.cap t
        (e.A_list.filter (fun u => u.Classk.isSome)) (livePool e) e.snapshots }

/-- Modelled from the spec (§4.4, §4.5): one accepted ingestion step — the
distance stage, then (after sample index `k·t_global − 1`) the density stage
and a snapshot capture; returns the id of the absorbing microcluster. -/
def ingestStep (e : Engine) (x : List ℚ) (t : ℕ) : Engine × ℕ :=
  let r := distanceStage { e with last_t := some t } x t
  if (t + 1) % r.1.t_global = 0 then
    (snapshotCapture (densityStageE r.1) t, r.2)
  else r

/-- Modelled from the spec (§4.5, §6, §7): `ingest(sample, t)` — rejects a
timestamp smaller than a previously accepted one with `OutOfOrder`, leaving
the engine state untouched; otherwise advances one step. -/
inductive DyCleeError where
  | OutOfOrder
deriving DecidableEq, Repr

def ingest (e : Engine) (x : List ℚ) (t : ℕ) : Except DyCleeError (Engine × ℕ) :=
  match e.last_t with
  | some t0 => if t < t0 then .error .OutOfOrder else .ok (ingestStep e x t)
  | none => .ok (ingestStep e x t)

/-- Label of the live microcluster with id `i`, if any. -/
def resolveLabel (pool : List MicroCluster) (i : ℕ) : Option ℕ :=
  match pool.find? (fun u => decide (u.id = i)) with
  | some u => u.Classk
  | none => none

/-- Ingest the samples with consecutive timestamps from `t0`, collecting the
absorbing microcluster id of each sample. -/
def runLoop (e : Engine) : List (List ℚ) → ℕ → Engine × List ℕ
  | [], _ => (e, [])
  | x :: xs, t =>
      let st := ingestStep e x t
      let r := runLoop st.1 xs (t + 1)
      (r.1, st.2 :: r.2)

/-- Modelled from the spec (§4.5): `run_dataset(X)` — assign `t = 0..|X|−1` and
ingest each row, run a final density stage, and return per sample the final
label of the microcluster that absorbed it (`none` is "Unclassed"). -/
def run_dataset (e : Engine) (X : List (List ℚ)) : List (Option ℕ) × Engine :=
  let r := runLoop e X 0
  let ef := densityStageE r.1
  (r.2.map (fun i => resolveLabel (livePool ef) i), ef)

/-- Modelled from the spec: the `SerialDyClee` constructor receives `context`
as a 2×d matrix of per-dimension minima and maxima (the callers build it as
`np.vstack([X.min(axis=0), X.max(axis=0)])`, src/UrbanGBDataset.ipynb and
src/snapshot_plot_2.ipynb); the engine internals (absent from `src/`) extend it
with a row of per-dimension ranges at index 2, which the caller in
src/UrbanGBDataset.ipynb uses to recover raw-space centers as
`center * context[2] + context[0]`. -/
def engineContext (lo hi : List ℚ) : List (List ℚ) :=
  [lo, hi, List.zipWith (fun h l => h - l) hi lo]

/-- Modelled from the spec: normalization of a raw sample into the unit box,
`(x − lo) / range` per dimension; the engine stores and exposes centers in
these normalized coordinates. -/
def normalizeGo : List ℚ → List ℚ → List ℚ → List ℚ
  | l :: ls, r :: rs, v :: vs => (v - l) / r :: normalizeGo ls rs vs
  | _, _, _ => []

/-- The raw-space recovery used by the caller (src/UrbanGBDataset.ipynb):
`center * context[2] + context[0]` per dimension. -/
def denormalizeGo : List ℚ → List ℚ → List ℚ → List ℚ
  | l :: ls, r :: rs, v :: vs => (v * r + l) :: denormalizeGo ls rs vs
  | _, _, _ => []

/-- The chosen candidate is at least as good as `v`: no farther from the
sample, and no younger among equally distant candidates. -/
def NotWorse (x : List ℚ) (r v : MicroCluster) : Prop :=
  dist2 r.center x ≤ dist2 v.center x ∧
    (dist2 v.center x = dist2 r.center x → r.t_start ≤ v.t_start)

/-- Invariant of the snapshot store: every entry sits in a tier `≤ L` and every
tier holds at most its retention cap. -/
def StoreOk (alpha cap : ℕ) (s : List SnapshotEntry) : Prop :=
  (∀ en ∈ s, en.order ≤ cap) ∧ ∀ l, tierCount l s ≤ tierCap alpha l

/-- Concrete one-dimensional context for witnesses: `phi = 1`, box `[0, 1]`. -/
def exCtx : GridContext := ⟨1, [0], [1], [false]⟩

/-- Concrete microcluster at the origin cell. -/
def exA : MicroCluster := ⟨0, 1, [0], 0, 0, .LowDensity, none, [0]⟩

/-- Concrete younger microcluster in cell 5. -/
def exB : MicroCluster := ⟨1, 1, [5], 1, 1, .LowDensity, none, [5]⟩

/-- Concrete engine with `exA` and `exB` as outliers. -/
def exE : Engine := ⟨exCtx, 10, 2, 5, none, 2, [], [exA, exB], []⟩

/-- `exA` after density classification (density 1 meets both thresholds). -/
def exDense : MicroCluster := ⟨0, 1, [0], 0, 0, .Dense, none, [0]⟩

theorem reachableDims_symm (os : List Bool) (a b : List ℤ) :
    reachableDims os a b = reachableDims os b a := by
  induction os generalizing a b with
  | nil =>
    cases a <;> cases b <;> rfl
  | cons o os ih =>
    cases a with
    | nil => cases b <;> rfl
    | cons x xs =>
      cases b with
      | nil => rfl
      | cons y ys =>
        show (_ && _) = (_ && _)
        rw [ih xs ys]
        congr 1
        cases o with
        | false =>
          show decide ((x - y).natAbs ≤ 1) = decide ((y - x).natAbs ≤ 1)
          rw [decide_eq_decide]
          omega
        | true =>
          show (x == y) = (y == x)
          by_cases h : x = y
          · subst h
            rfl
          · rw [beq_eq_false_iff_ne.mpr h, beq_eq_false_iff_ne.mpr (fun e => h e.symm)]

theorem diffCount_symm (a b : List ℤ) : diffCount a b = diffCount b a := by
  induction a generalizing b with
  | nil => cases b <;> rfl
  | cons x xs ih =>
    cases b with
    | nil => rfl
    | cons y ys =>
      show (if x = y then 0 else 1) + diffCount xs ys = (if y = x then 0 else 1) + diffCount ys xs
      rw [ih ys]
      congr 1
      by_cases h : x = y
      · rw [if_pos h, if_pos h.symm]
      · rw [if_neg h, if_neg (fun hyx => h hyx.symm)]

theorem direct_symm (c : GridContext) (a b : List ℤ) :
    c.direct a b = c.direct b a := by
  rw [GridContext.direct, GridContext.direct, GridContext.reachable,
    GridContext.reachable, reachableDims_symm, diffCount_symm]

theorem le_foldl_max (a : ℚ) (xs : List ℚ) : a ≤ xs.foldl max a := by
  induction xs generalizing a with
  | nil => exact le_refl a
  | cons x xs ih => exact le_trans (le_max_left a x) (ih (max a x))

theorem mem_le_foldl_max (a : ℚ) (xs : List ℚ) (x : ℚ) (hx : x ∈ xs) :
    x ≤ xs.foldl max a := by
  induction xs generalizing a with
  | nil => cases hx
  | cons y ys ih =>
    rcases List.mem_cons.mp hx with h | h
    · subst h
      exact le_trans (le_max_right a x) (le_foldl_max (max a x) ys)
    · exact ih (max a y) h

theorem mem_le_maxD (l : List ℚ) (x : ℚ) (hx : x ∈ l) : x ≤ maxD l := by
  cases l with
  | nil => cases hx
  | cons y ys =>
    rcases List.mem_cons.mp hx with h | h
    · subst h
      exact le_foldl_max x ys
    · exact mem_le_foldl_max y ys x h

theorem meanD_le_maxD (l : List ℚ) (hl : l ≠ []) : meanD l ≤ maxD l := by
  have hlen : 0 < (l.length : ℚ) := by
    have := List.length_pos.mpr hl
    exact_mod_cast this
  have hsum : l.sum ≤ l.length • maxD l :=
    List.sum_le_card_nsmul l (maxD l) (fun x hx => mem_le_maxD l x hx)
  rw [nsmul_eq_mul] at hsum
  rw [meanD, div_le_iff₀ hlen]
  linarith

theorem meanD_le_dHi (l : List ℚ) (hl : l ≠ []) : meanD l ≤ dHi l := by
  have h := meanD_le_maxD l hl
  rw [dHi]
  linarith

theorem classifyDensity_eq_dense_iff (dens dlo dhi : ℚ) :
    classifyDensity dens dlo dhi = .Dense ↔ dhi ≤ dens := by
  rw [classifyDensity]
  split_ifs with h1 h2 <;> simp_all

theorem classifyDensity_eq_semi_iff (dens dlo dhi : ℚ) :
    classifyDensity dens dlo dhi = .SemiDense ↔ dlo ≤ dens ∧ dens < dhi := by
  rw [classifyDensity]
  split_ifs with h1 h2
  · constructor
    · intro h
      exact absurd h (by decide)
    · rintro ⟨-, hlt⟩
      exact absurd h1 (not_le.mpr hlt)
  · constructor
    · intro _
      exact ⟨h2, lt_of_not_le h1⟩
    · intro _
      rfl
  · constructor
    · intro h
      exact absurd h (by decide)
    · rintro ⟨hge, -⟩
      exact absurd hge h2

theorem classifyDensity_eq_low_iff (dens dlo dhi : ℚ) (hle : dlo ≤ dhi) :
    classifyDensity dens dlo dhi = .LowDensity ↔ dens < dlo := by
  rw [classifyDensity]
  split_ifs with h1 h2
  · constructor
    · intro h
      exact absurd h (by decide)
    · intro h
      exact absurd h1 (not_le.mpr (lt_of_lt_of_le h hle))
  · constructor
    · intro h
      exact absurd h (by decide)
    · intro h
      exact absurd h (not_lt.mpr h2)
  · constructor
    · intro _
      exact lt_of_not_le h2
    · intro _
      rfl

/-- C1: at every density stage, with `D_lo` the mean density over live
microclusters and `D_hi = D_lo + (max − D_lo)/2`, a classified microcluster is
`Dense` iff its density `n/V` is `≥ D_hi`, `Semi-Dense` iff `D_lo ≤ density < D_hi`,
and `Low-Density` iff `density < D_lo`; the class is the total function
`classifyDensity` of the density and the two thresholds. -/
theorem density_type_characterization (V : ℚ) (pool : List MicroCluster)
    (hpool : pool ≠ []) (u : MicroCluster) (hu : u ∈ classifyStep V pool) :
    (u.density_type = .Dense ↔ dHi (pool.map (density V)) ≤ density V u) ∧
    (u.density_type = .SemiDense ↔
      meanD (pool.map (density V)) ≤ density V u ∧
        density V u < dHi (pool.map (density V))) ∧
    (u.density_type = .LowDensity ↔ density V u < meanD (pool.map (density V))) := by
  have hne : pool.map (density V) ≠ [] := by
    simpa using hpool
  have hle := meanD_le_dHi (pool.map (density V)) hne
  rw [classifyStep] at hu
  simp only [List.mem_map] at hu
  obtain ⟨v, hv, rfl⟩ := hu
  have hdv : density V { v with
      density_type := classifyDensity (density V v)
        (meanD (pool.map (density V))) (dHi (pool.map (density V))),
      Classk := none } = density V v := rfl
  rw [hdv]
  refine ⟨?_, ?_, ?_⟩
  · exact classifyDensity_eq_dense_iff _ _ _
  · exact classifyDensity_eq_semi_iff _ _ _
  · exact classifyDensity_eq_low_iff _ _ _ hle

theorem length_applyLabelsGo (labels : ℕ → Option ℕ) (A : List MicroCluster) (i0 : ℕ) :
    (applyLabelsGo labels A i0).length = A.length := by
  induction A generalizing i0 with
  | nil => rfl
  | cons u us ih => simp [applyLabelsGo, ih]

theorem length_applyLabels (A : List MicroCluster) (labels : ℕ → Option ℕ) :
    (applyLabels A labels).length = A.length :=
  length_applyLabelsGo labels A 0

theorem getD_applyLabelsGo (labels : ℕ → Option ℕ) (A : List MicroCluster)
    (i0 i : ℕ) (hm : i < A.length) :
    (applyLabelsGo labels A i0).getD i default =
      { A.getD i default with Classk := labels (i0 + i) } := by
  induction A generalizing i0 i with
  | nil => cases hm
  | cons u us ih =>
    cases i with
    | zero => rfl
    | succ i =>
      have hm2 : i < us.length := by
        rw [List.length_cons] at hm
        omega
      have := ih (i0 + 1) i hm2
      simp only [applyLabelsGo]
      rw [List.getD_cons_succ, this, List.getD_cons_succ]
      have harg : i0 + 1 + i = i0 + (i + 1) := by omega
      rw [harg]

theorem getD_applyLabels (A : List MicroCluster) (labels : ℕ → Option ℕ) (m : ℕ)
    (hm : m < A.length) :
    (applyLabels A labels).getD m default =
      { A.getD m default with Classk := labels m } := by
  have h0 := getD_applyLabelsGo labels A 0 m hm
  rw [show (0 + m) = m from by omega] at h0
  exact h0

theorem mem_applyLabels (A : List MicroCluster) (labels : ℕ → Option ℕ)
    (u : MicroCluster) :
    u ∈ applyLabels A labels ↔
      ∃ i, i < A.length ∧ u = { A.getD i default with Classk := labels i } := by
  rw [List.mem_iff_getElem]
  constructor
  · rintro ⟨i, h, rfl⟩
    have hA : i < A.length := by
      rw [length_applyLabels] at h
      exact h
    refine ⟨i, hA, ?_⟩
    rw [← List.getD_eq_getElem _ default h, getD_applyLabels A labels i hA]
  · rintro ⟨i, hA, rfl⟩
    have h : i < (applyLabels A labels).length := by
      rw [length_applyLabels]
      exact hA
    refine ⟨i, h, ?_⟩
    rw [← List.getD_eq_getElem _ default h, getD_applyLabels A labels i hA]

theorem classk_none_of_mem_classifyStep (V : ℚ) (pool : List MicroCluster)
    (u : MicroCluster) (hu : u ∈ classifyStep V pool) : u.Classk = none := by
  rw [classifyStep] at hu
  simp only [List.mem_map] at hu
  obtain ⟨v, -, rfl⟩ := hu
  rfl

theorem strip_applyLabelsGo (labels : ℕ → Option ℕ) (A : List MicroCluster) (i0 : ℕ)
    (hA : ∀ u ∈ A, u.Classk = none) :
    (applyLabelsGo labels A i0).map (fun u => { u with Classk := none }) = A := by
  induction A generalizing i0 with
  | nil => rfl
  | cons u us ih =>
    rw [applyLabelsGo, List.map_cons, ih (i0 + 1) (fun v hv => hA v (List.mem_cons_of_mem u hv))]
    congr 1
    have hu := hA u (List.mem_cons_self u us)
    cases u
    simp_all

/-- C6: after every density stage the output lists partition the live
population — no microcluster is in both lists, `A` holds exactly Dense and
Semi-Dense microclusters, `O` exactly the Low-Density ones, and `A` (with its
fresh labels stripped back to "Unclassed") together with `O` is a permutation
of the classified live population. -/
theorem partition_after_density_stage (c : GridContext) (pool : List MicroCluster) :
    (∀ u ∈ (densityStage c pool).1, u ∉ (densityStage c pool).2) ∧
    (∀ u ∈ (densityStage c pool).1,
      u.density_type = .Dense ∨ u.density_type = .SemiDense) ∧
    (∀ u, u ∈ (densityStage c pool).2 ↔
      u ∈ classifyStep c.volume pool ∧ u.density_type = .LowDensity) ∧
    List.Perm
      ((densityStage c pool).1.map (fun u => { u with Classk := none }) ++
        (densityStage c pool).2)
      (classifyStep c.volume pool) := by
  have hO : ∀ u, u ∈ (densityStage c pool).2 ↔
      u ∈ classifyStep c.volume pool ∧ u.density_type = .LowDensity := by
    intro u
    rw [densityStage]
    simp [List.mem_filter]
  have hA : ∀ u ∈ (densityStage c pool).1,
      u.density_type = .Dense ∨ u.density_type = .SemiDense := by
    intro u hu
    rw [densityStage] at hu
    rw [mem_applyLabels] at hu
    obtain ⟨i, h, rfl⟩ := hu
    have hmem : ((classifyStep c.volume pool).filter
        (fun u => decide (u.density_type = .Dense ∨ u.density_type = .SemiDense))).getD
          i default ∈
        (classifyStep c.volume pool).filter
          (fun u => decide (u.density_type = .Dense ∨ u.density_type = .SemiDense)) := by
      rw [List.getD_eq_getElem _ default h]
      exact List.getElem_mem h
    rw [List.mem_filter] at hmem
    have := hmem.2
    simp only [decide_eq_true_eq] at this
    exact this
  refine ⟨?_, hA, hO, ?_⟩
  · intro u huA huO
    rcases hA u huA with h | h <;> rw [(hO u).mp huO |>.2] at h <;> cases h
  · rw [densityStage]
    have hstrip : (applyLabels
        ((classifyStep c.volume pool).filter
          (fun u => decide (u.density_type = .Dense ∨ u.density_type = .SemiDense)))
        (labelStage c c.volume
          ((classifyStep c.volume pool).filter
            (fun u => decide (u.density_type = .Dense ∨ u.density_type = .SemiDense))))).map
          (fun u => { u with Classk := none }) =
        (classifyStep c.volume pool).filter
          (fun u => decide (u.density_type = .Dense ∨ u.density_type = .SemiDense)) := by
      apply strip_applyLabelsGo
      intro u hu
      exact classk_none_of_mem_classifyStep c.volume pool u (List.mem_filter.mp hu).1
    rw [hstrip]
    have hcongr : (classifyStep c.volume pool).filter
        (fun u => decide (u.density_type = .LowDensity)) =
        (classifyStep c.volume pool).filter
          (fun u => !(decide (u.density_type = .Dense ∨ u.density_type = .SemiDense))) := by
      apply List.filter_congr
      intro u _
      cases u.density_type <;> decide
    rw [hcongr]
    exact List.filter_append_perm _ (classifyStep c.volume pool)

/-- Witness for C1 at a concrete input: a single microcluster of count 2 with
`V = 1` is classified `Dense` (its density 2 equals both thresholds). -/
theorem density_type_characterization_witness :
    ([(⟨0, 2, [0], 0, 0, .LowDensity, none, [0]⟩ : MicroCluster)] ≠ []) ∧
    (⟨0, 2, [0], 0, 0, .Dense, none, [0]⟩ : MicroCluster) ∈
      classifyStep 1 [(⟨0, 2, [0], 0, 0, .LowDensity, none, [0]⟩ : MicroCluster)] ∧
    ((⟨0, 2, [0], 0, 0, .Dense, none, [0]⟩ : MicroCluster).density_type = .Dense ↔
      dHi ([(⟨0, 2, [0], 0, 0, .LowDensity, none, [0]⟩ : MicroCluster)].map (density 1)) ≤
        density 1 (⟨0, 2, [0], 0, 0, .Dense, none, [0]⟩ : MicroCluster)) := by
  have hmem : (⟨0, 2, [0], 0, 0, .Dense, none, [0]⟩ : MicroCluster) ∈
      classifyStep 1 [(⟨0, 2, [0], 0, 0, .LowDensity, none, [0]⟩ : MicroCluster)] := by
    simp only [classifyStep, classifyDensity, density, meanD, maxD, dHi, List.map,
      List.sum_cons, List.sum_nil, List.length_cons, List.length_nil, List.mem_singleton]
    norm_num
  refine ⟨by simp, hmem, ?_⟩
  exact (density_type_characterization 1
    [(⟨0, 2, [0], 0, 0, .LowDensity, none, [0]⟩ : MicroCluster)]
    (by simp)
    (⟨0, 2, [0], 0, 0, .Dense, none, [0]⟩ : MicroCluster)
    hmem).1

theorem adj_symm {c : GridContext} {A : List MicroCluster} {i j : ℕ}
    (h : Adj c A i j) : Adj c A j i := by
  rw [Adj] at h ⊢
  rw [direct_symm]
  exact h

theorem setLabel_self (labels : ℕ → Option ℕ) (v k : ℕ) :
    setLabel labels v k v = some k := by
  rw [setLabel]
  simp

theorem setLabel_other (labels : ℕ → Option ℕ) (v k i : ℕ) (h : i ≠ v) :
    setLabel labels v k i = labels i := by
  rw [setLabel]
  simp [h]

theorem setLabel_mono (labels : ℕ → Option ℕ) (v k : ℕ) (hv : labels v = none) :
    ∀ m km, labels m = some km → setLabel labels v k m = some km := by
  intro m km hm
  rcases eq_or_ne m v with rfl | hne
  · rw [hv] at hm
    cases hm
  · rw [setLabel_other labels v k m hne]
    exact hm

theorem labelPath_mono {c : GridContext} {A : List MicroCluster}
    {labels labels' : ℕ → Option ℕ} {k i j : ℕ}
    (hmono : ∀ m km, labels m = some km → labels' m = some km)
    (h : LabelPath c A labels k i j) : LabelPath c A labels' k i j := by
  obtain ⟨p, h1, h2, h3, h4, h5⟩ := h
  exact ⟨p, h1, h2, fun m hm => ⟨(h3 m hm).1, hmono m k (h3 m hm).2⟩, h4, h5⟩

theorem labelPath_symm {c : GridContext} {A : List MicroCluster}
    {labels : ℕ → Option ℕ} {k i j : ℕ}
    (h : LabelPath c A labels k i j) : LabelPath c A labels k j i := by
  obtain ⟨p, h1, h2, h3, h4, h5⟩ := h
  refine ⟨p.reverse, ?_, ?_, ?_, ?_, ?_⟩
  · rw [List.head?_reverse]
    exact h2
  · rw [List.getLast?_reverse]
    exact h1
  · intro m hm
    exact h3 m (List.mem_reverse.mp hm)
  · rw [List.chain'_reverse]
    exact List.Chain'.imp (fun a b hab => adj_symm hab) h4
  · obtain ⟨m, hm, hd⟩ := h5
    exact ⟨m, List.mem_reverse.mpr hm, hd⟩

theorem labelPath_single {c : GridContext} {A : List MicroCluster}
    {labels : ℕ → Option ℕ} {k i : ℕ} (h1 : i < A.length)
    (h2 : labels i = some k) (h3 : (A.getD i default).density_type = .Dense) :
    LabelPath c A labels k i i := by
  refine ⟨[i], rfl, rfl, ?_, List.chain'_singleton i, ⟨i, List.mem_singleton.mpr rfl, h3⟩⟩
  intro m hm
  rw [List.mem_singleton] at hm
  subst hm
  exact ⟨h1, h2⟩

theorem labelPath_extend {c : GridContext} {A : List MicroCluster}
    {labels : ℕ → Option ℕ} {k i u v : ℕ}
    (h : LabelPath c A labels k i u) (hadj : Adj c A u v)
    (hv : labels v = some k) (hvlen : v < A.length) :
    LabelPath c A labels k i v := by
  obtain ⟨p, h1, h2, h3, h4, h5⟩ := h
  refine ⟨p ++ [v], ?_, List.getLast?_concat p, ?_, ?_, ?_⟩
  · cases p with
    | nil => cases h1
    | cons x xs => exact h1
  · intro m hm
    rcases List.mem_append.mp hm with hm | hm
    · exact h3 m hm
    · rw [List.mem_singleton] at hm
      subst hm
      exact ⟨hvlen, hv⟩
  · rw [List.chain'_append]
    refine ⟨h4, List.chain'_singleton v, ?_⟩
    intro x hx y hy
    rw [Option.mem_def, h2] at hx
    rw [Option.mem_def] at hy
    cases hx
    cases hy
    exact hadj
  · obtain ⟨m, hm, hd⟩ := h5
    exact ⟨m, List.mem_append_left _ hm, hd⟩

theorem labelPath_trans {c : GridContext} {A : List MicroCluster}
    {labels : ℕ → Option ℕ} {k i j l : ℕ}
    (h : LabelPath c A labels k i j) (h' : LabelPath c A labels k j l) :
    LabelPath c A labels k i l := by
  obtain ⟨q, g1, g2, g3, g4, -⟩ := h'
  cases q with
  | nil => cases g1
  | cons j0 q' =>
    rw [show j0 = j by simpa using g1] at g2 g3 g4
    cases q' with
    | nil =>
      have hjl : j = l := by
        simpa using g2
      subst hjl
      exact h
    | cons y q'' =>
      obtain ⟨p, h1, h2, h3, h4, h5⟩ := h
      refine ⟨p ++ y :: q'', ?_, ?_, ?_, ?_, ?_⟩
      · cases p with
        | nil => cases h1
        | cons x xs => exact h1
      · rw [List.getLast?_append_of_ne_nil p (List.cons_ne_nil y q'')]
        rw [List.getLast?_cons_cons] at g2
        exact g2
      · intro m hm
        rcases List.mem_append.mp hm with hm | hm
        · exact h3 m hm
        · exact g3 m (List.mem_cons_of_mem j hm)
      · rw [List.chain'_append]
        have g4' := List.chain'_cons'.mp g4
        refine ⟨h4, g4'.2, ?_⟩
        intro x hx z hz
        rw [Option.mem_def, h2] at hx
        cases hx
        exact g4'.1 z hz
      · obtain ⟨m, hm, hd⟩ := h5
        exact ⟨m, List.mem_append_left _ hm, hd⟩

theorem setLabel_inRange {A : List MicroCluster} {labels : ℕ → Option ℕ} {v k : ℕ}
    (hr : LabelsInRange A labels) (hvlen : v < A.length) :
    LabelsInRange A (setLabel labels v k) := by
  intro i k' hik
  rcases eq_or_ne i v with rfl | hne
  · exact hvlen
  · rw [setLabel_other labels v k i hne] at hik
    exact hr i k' hik

theorem setLabel_bounded {labels : ℕ → Option ℕ} {v k kmax : ℕ}
    (hb : LabelsBounded labels kmax) (hk : k ≤ kmax) :
    LabelsBounded (setLabel labels v k) kmax := by
  intro i k' hik
  rcases eq_or_ne i v with rfl | hne
  · rw [setLabel_self] at hik
    cases hik
    exact hk
  · rw [setLabel_other labels v k i hne] at hik
    exact hb i k' hik

theorem setLabel_connected {c : GridContext} {A : List MicroCluster}
    {labels : ℕ → Option ℕ} {u v k : ℕ}
    (hc : LabelsConnected c A labels) (hu : labels u = some k)
    (hadj : Adj c A u v) (hvnone : labels v = none) (hvlen : v < A.length) :
    LabelsConnected c A (setLabel labels v k) := by
  have hmono := setLabel_mono labels v k hvnone
  have hv1 : setLabel labels v k v = some k := setLabel_self labels v k
  intro k' i j hi hj
  by_cases hiv : i = v
  · rw [hiv, setLabel_self] at hi
    injection hi with hk'
    by_cases hjv : j = v
    · rw [hiv, hjv, ← hk']
      have huu : LabelPath c A (setLabel labels v k) k u u :=
        labelPath_mono hmono (hc k u u hu hu)
      have huv2 := labelPath_extend huu hadj hv1 hvlen
      exact labelPath_trans (labelPath_symm huv2) huv2
    · rw [setLabel_other labels v k j hjv] at hj
      rw [← hk'] at hj
      rw [hiv, ← hk']
      have huj : LabelPath c A (setLabel labels v k) k u j :=
        labelPath_mono hmono (hc k u j hu hj)
      exact labelPath_symm (labelPath_extend (labelPath_symm huj) hadj hv1 hvlen)
  · rw [setLabel_other labels v k i hiv] at hi
    by_cases hjv : j = v
    · rw [hjv, setLabel_self] at hj
      injection hj with hk'
      rw [hjv, ← hk']
      rw [← hk'] at hi
      have hiu : LabelPath c A (setLabel labels v k) k i u :=
        labelPath_mono hmono (hc k i u hi hu)
      exact labelPath_extend hiu hadj hv1 hvlen
    · rw [setLabel_other labels v k j hjv] at hj
      exact labelPath_mono hmono (hc k' i j hi hj)

theorem labelNeighbors_inv (c : GridContext) (A : List MicroCluster) (u k kmax : ℕ)
    (hk : k ≤ kmax) :
    ∀ (vs : List ℕ) (labels : ℕ → Option ℕ) (q : List ℕ),
      (∀ v ∈ vs, v < A.length) →
      LabelsInRange A labels → LabelsConnected c A labels →
      LabelsBounded labels kmax → QueueOk c A labels k q →
      labels u = some k → (A.getD u default).density_type = .Dense →
      (∀ m km, labels m = some km → (labelNeighbors c A u k vs (labels, q)).1 m = some km) ∧
      LabelsInRange A (labelNeighbors c A u k vs (labels, q)).1 ∧
      LabelsConnected c A (labelNeighbors c A u k vs (labels, q)).1 ∧
      LabelsBounded (labelNeighbors c A u k vs (labels, q)).1 kmax ∧
      QueueOk c A (labelNeighbors c A u k vs (labels, q)).1 k
        (labelNeighbors c A u k vs (labels, q)).2 ∧
      (labelNeighbors c A u k vs (labels, q)).1 u = some k := by
  intro vs
  induction vs with
  | nil =>
    intro labels q _ hr hc hb hq hu _
    exact ⟨fun m km h => h, hr, hc, hb, hq, hu⟩
  | cons v vs ih =>
    intro labels q hvs hr hc hb hq hu hud
    have hvlen : v < A.length := hvs v (List.mem_cons_self v vs)
    have hvs' : ∀ w ∈ vs, w < A.length := fun w hw => hvs w (List.mem_cons_of_mem v hw)
    simp only [labelNeighbors]
    split_ifs with hcond hdense
    · obtain ⟨hvnone, hadj⟩ := hcond
      have hmono := setLabel_mono labels v k hvnone
      have hu1 : setLabel labels v k u = some k := hmono u k hu
      have hq1 : QueueOk c A (setLabel labels v k) k (q ++ [v]) := by
        intro w hw
        rcases List.mem_append.mp hw with hw | hw
        · obtain ⟨hw1, hw2⟩ := hq w hw
          exact ⟨hmono w k hw1, hw2⟩
        · rw [List.mem_singleton] at hw
          rw [hw]
          exact ⟨setLabel_self labels v k, hdense⟩
      obtain ⟨m1, m2, m3, m4, m5, m6⟩ :=
        ih (setLabel labels v k) (q ++ [v]) hvs'
          (setLabel_inRange hr hvlen)
          (setLabel_connected hc hu hadj hvnone hvlen)
          (setLabel_bounded hb hk) hq1 hu1 hud
      exact ⟨fun m km h => m1 m km (hmono m km h), m2, m3, m4, m5, m6⟩
    · obtain ⟨hvnone, hadj⟩ := hcond
      have hmono := setLabel_mono labels v k hvnone
      have hu1 : setLabel labels v k u = some k := hmono u k hu
      have hq1 : QueueOk c A (setLabel labels v k) k q := by
        intro w hw
        obtain ⟨hw1, hw2⟩ := hq w hw
        exact ⟨hmono w k hw1, hw2⟩
      obtain ⟨m1, m2, m3, m4, m5, m6⟩ :=
        ih (setLabel labels v k) q hvs'
          (setLabel_inRange hr hvlen)
          (setLabel_connected hc hu hadj hvnone hvlen)
          (setLabel_bounded hb hk) hq1 hu1 hud
      exact ⟨fun m km h => m1 m km (hmono m km h), m2, m3, m4, m5, m6⟩
    · exact ih labels q hvs' hr hc hb hq hu hud

theorem bfsLoop_inv (c : GridContext) (A : List MicroCluster) (k kmax : ℕ)
    (hk : k ≤ kmax) :
    ∀ (fuel : ℕ) (labels : ℕ → Option ℕ) (q : List ℕ),
      LabelsInRange A labels → LabelsConnected c A labels →
      LabelsBounded labels kmax → QueueOk c A labels k q →
      LabelsInRange A (bfsLoop c A k fuel labels q) ∧
      LabelsConnected c A (bfsLoop c A k fuel labels q) ∧
      LabelsBounded (bfsLoop c A k fuel labels q) kmax := by
  intro fuel
  induction fuel with
  | zero =>
    intro labels q hr hc hb _
    exact ⟨hr, hc, hb⟩
  | succ fuel ih =>
    intro labels q hr hc hb hq
    cases q with
    | nil => exact ⟨hr, hc, hb⟩
    | cons u rest =>
      obtain ⟨hu1, hu2⟩ := hq u (List.mem_cons_self u rest)
      have hrest : QueueOk c A labels k rest :=
        fun w hw => hq w (List.mem_cons_of_mem u hw)
      obtain ⟨-, m2, m3, m4, m5, -⟩ :=
        labelNeighbors_inv c A u k kmax hk (List.range A.length) labels rest
          (fun v hv => List.mem_range.mp hv) hr hc hb hrest hu1 hu2
      exact ih _ _ m2 m3 m4 m5

theorem labelSeeds_inv (c : GridContext) (A : List MicroCluster) :
    ∀ (seeds : List ℕ) (labels : ℕ → Option ℕ) (k : ℕ),
      (∀ s ∈ seeds, s < A.length ∧ (A.getD s default).density_type = .Dense) →
      LabelsInRange A labels → LabelsConnected c A labels → LabelsBounded labels k →
      LabelsInRange A (labelSeeds c A seeds labels k) ∧
      LabelsConnected c A (labelSeeds c A seeds labels k) := by
  intro seeds
  induction seeds with
  | nil =>
    intro labels k _ hr hc _
    exact ⟨hr, hc⟩
  | cons s rest ih =>
    intro labels k hseeds hr hc hb
    obtain ⟨hslen, hsdense⟩ := hseeds s (List.mem_cons_self s rest)
    have hseeds' : ∀ w ∈ rest, w < A.length ∧ (A.getD w default).density_type = .Dense :=
      fun w hw => hseeds w (List.mem_cons_of_mem s hw)
    cases hls : labels s with
    | some k0 =>
      simp only [labelSeeds, hls]
      exact ih labels k hseeds' hr hc hb
    | none =>
      simp only [labelSeeds, hls]
      have hmono := setLabel_mono labels s (k + 1) hls
      have hs1 : setLabel labels s (k + 1) s = some (k + 1) := setLabel_self labels s (k + 1)
      have hr1 : LabelsInRange A (setLabel labels s (k + 1)) := setLabel_inRange hr hslen
      have hb1 : LabelsBounded (setLabel labels s (k + 1)) (k + 1) :=
        setLabel_bounded (fun i k' h => Nat.le_succ_of_le (hb i k' h)) (le_refl (k + 1))
      have hc1 : LabelsConnected c A (setLabel labels s (k + 1)) := by
        intro k' i j hi hj
        by_cases hik : k' = k + 1
        · subst hik
          have his : i = s := by
            by_contra hne
            rw [setLabel_other labels s (k + 1) i hne] at hi
            exact absurd (hb i (k + 1) hi) (by omega)
          have hjs : j = s := by
            by_contra hne
            rw [setLabel_other labels s (k + 1) j hne] at hj
            exact absurd (hb j (k + 1) hj) (by omega)
          rw [his, hjs]
          exact labelPath_single hslen hs1 hsdense
        · have hi' : labels i = some k' := by
            rcases eq_or_ne i s with rfl | hne
            · rw [setLabel_self] at hi
              injection hi with h
              exact absurd h.symm hik
            · rw [setLabel_other labels s (k + 1) i hne] at hi
              exact hi
          have hj' : labels j = some k' := by
            rcases eq_or_ne j s with rfl | hne
            · rw [setLabel_self] at hj
              injection hj with h
              exact absurd h.symm hik
            · rw [setLabel_other labels s (k + 1) j hne] at hj
              exact hj
          exact labelPath_mono hmono (hc k' i j hi' hj')
      have hq1 : QueueOk c A (setLabel labels s (k + 1)) (k + 1) [s] := by
        intro w hw
        rw [List.mem_singleton] at hw
        rw [hw]
        exact ⟨hs1, hsdense⟩
      obtain ⟨b1, b2, b3⟩ :=
        bfsLoop_inv c A (k + 1) (k + 1) (le_refl (k + 1)) (A.length + 1)
          (setLabel labels s (k + 1)) [s] hr1 hc1 hb1 hq1
      exact ih _ (k + 1) hseeds' b1 b2 b3

theorem mem_insertSorted (le : ℕ → ℕ → Bool) (x y : ℕ) (l : List ℕ)
    (h : y ∈ insertSorted le x l) : y = x ∨ y ∈ l := by
  induction l with
  | nil =>
    rw [insertSorted, List.mem_singleton] at h
    exact Or.inl h
  | cons z zs ih =>
    rw [insertSorted] at h
    split_ifs at h
    · rcases List.mem_cons.mp h with h | h
      · exact Or.inl h
      · exact Or.inr h
    · rcases List.mem_cons.mp h with h | h
      · exact Or.inr (h ▸ List.mem_cons_self z zs)
      · rcases ih h with h | h
        · exact Or.inl h
        · exact Or.inr (List.mem_cons_of_mem z h)

theorem mem_sortBy (le : ℕ → ℕ → Bool) (l : List ℕ) (x : ℕ)
    (h : x ∈ sortBy le l) : x ∈ l := by
  induction l with
  | nil =>
    rw [sortBy] at h
    cases h
  | cons z zs ih =>
    rw [sortBy] at h
    rcases mem_insertSorted le z x (sortBy le zs) h with h | h
    · exact h ▸ List.mem_cons_self z zs
    · exact List.mem_cons_of_mem z (ih h)

theorem labelStage_inv (c : GridContext) (V : ℚ) (A : List MicroCluster) :
    LabelsInRange A (labelStage c V A) ∧ LabelsConnected c A (labelStage c V A) := by
  rw [labelStage]
  apply labelSeeds_inv
  · intro s hs
    have hs' := mem_sortBy (seedLess V A) _ s hs
    rw [List.mem_filter] at hs'
    refine ⟨List.mem_range.mp hs'.1, ?_⟩
    have := hs'.2
    simp only [decide_eq_true_eq] at this
    exact this
  · intro i k h
    cases h
  · intro k i j hi _
    cases hi
  · intro i k' h
    cases h

theorem densityStage_fst (c : GridContext) (pool : List MicroCluster) :
    (densityStage c pool).1 =
      applyLabels (activeList c pool) (labelStage c c.volume (activeList c pool)) := rfl

theorem classk_some_lt (A : List MicroCluster) (labels : ℕ → Option ℕ) (m k : ℕ)
    (h : ((applyLabels A labels).getD m default).Classk = some k) : m < A.length := by
  by_contra hlt
  rw [List.getD_eq_default] at h
  · have hnone : (default : MicroCluster).Classk = none := rfl
    rw [hnone] at h
    cases h
  · rw [length_applyLabels]
    omega

theorem chain'_imp_mem {R S : ℕ → ℕ → Prop} (p : List ℕ)
    (himp : ∀ a ∈ p, ∀ b ∈ p, R a b → S a b) (h : List.Chain' R p) :
    List.Chain' S p := by
  induction p with
  | nil => exact List.chain'_nil
  | cons x xs ih =>
    rw [List.chain'_cons'] at h ⊢
    refine ⟨?_, ih (fun a ha b hb =>
      himp a (List.mem_cons_of_mem x ha) b (List.mem_cons_of_mem x hb)) h.2⟩
    intro y hy
    have hyx : y ∈ xs := List.mem_of_mem_head? hy
    exact himp x (List.mem_cons_self x xs) y (List.mem_cons_of_mem x hyx) (h.1 y hy)

/-- C2: after every density stage, any two entries of the final active list that
carry the same final-cluster label `k` are joined by a path of active-list
members in which consecutive members are face-adjacent (`direct`), every member
carries label `k`, and at least one member is Dense. -/
theorem label_propagation_face_connected (c : GridContext) (pool : List MicroCluster)
    (i j k : ℕ)
    (hi : (((densityStage c pool).1).getD i default).Classk = some k)
    (hj : (((densityStage c pool).1).getD j default).Classk = some k) :
    ∃ p : List ℕ, p.head? = some i ∧ p.getLast? = some j ∧
      (∀ m ∈ p, m < (densityStage c pool).1.length ∧
        (((densityStage c pool).1).getD m default).Classk = some k) ∧
      List.Chain' (fun a b =>
        c.direct (((densityStage c pool).1).getD a default).grid_addr
          (((densityStage c pool).1).getD b default).grid_addr = true) p ∧
      ∃ m ∈ p, (((densityStage c pool).1).getD m default).density_type = .Dense := by
  rw [densityStage_fst] at hi hj
  have hiA : i < (activeList c pool).length :=
    classk_some_lt (activeList c pool) (labelStage c c.volume (activeList c pool)) i k hi
  have hjA : j < (activeList c pool).length :=
    classk_some_lt (activeList c pool) (labelStage c c.volume (activeList c pool)) j k hj
  rw [getD_applyLabels _ _ i hiA] at hi
  rw [getD_applyLabels _ _ j hjA] at hj
  have hinv := labelStage_inv c c.volume (activeList c pool)
  obtain ⟨p, p1, p2, p3, p4, p5⟩ := hinv.2 k i j hi hj
  refine ⟨p, p1, p2, ?_, ?_, ?_⟩
  · intro m hm
    obtain ⟨hmlen, hmlab⟩ := p3 m hm
    constructor
    · rw [densityStage_fst, length_applyLabels]
      exact hmlen
    · rw [densityStage_fst, getD_applyLabels _ _ m hmlen]
      exact hmlab
  · refine chain'_imp_mem p ?_ p4
    intro a ha b hb hR
    have halen := (p3 a ha).1
    have hblen := (p3 b hb).1
    rw [densityStage_fst, getD_applyLabels _ _ a halen, getD_applyLabels _ _ b hblen]
    exact hR
  · obtain ⟨m, hm, hd⟩ := p5
    refine ⟨m, hm, ?_⟩
    have hmlen := (p3 m hm).1
    rw [densityStage_fst, getD_applyLabels _ _ m hmlen]
    exact hd

theorem distanceStage_O (e : Engine) (x : List ℚ) (t : ℕ) :
    (distanceStage e x t).1.O_list =
      (distanceStageCore e x t).1.O_list.filter
        (fun u => decide (t - u.t_last < (distanceStageCore e x t).1.t_global)) := rfl

theorem distanceStageCore_t_global (e : Engine) (x : List ℚ) (t : ℕ) :
    (distanceStageCore e x t).1.t_global = e.t_global := by
  rw [distanceStageCore]
  cases selectCandidate x (candidates e.ctx (livePool e) (e.ctx.address x)) with
  | none => rfl
  | some chosen =>
    simp only [assimilateInto]
    split
    · rfl
    · split
      · rfl
      · rfl

/-- C5: after the distance stage finishes processing a sample with timestamp
`t`, no microcluster left in `O` is `t_global` or more steps stale, and every
stale outlier present before the eviction substep has been destroyed. -/
theorem outlier_eviction_complete (e : Engine) (x : List ℚ) (t : ℕ) :
    (∀ u ∈ (distanceStage e x t).1.O_list, t - u.t_last < e.t_global) ∧
    (∀ u ∈ (distanceStageCore e x t).1.O_list,
      e.t_global ≤ t - u.t_last → u ∉ (distanceStage e x t).1.O_list) := by
  constructor
  · intro u hu
    rw [distanceStage_O] at hu
    have := (List.mem_filter.mp hu).2
    rw [distanceStageCore_t_global] at this
    simpa using this
  · intro u _ hstale hmem
    rw [distanceStage_O] at hmem
    have := (List.mem_filter.mp hmem).2
    rw [distanceStageCore_t_global] at this
    simp only [decide_eq_true_eq] at this
    omega

/-- C8: `ingest` fails with `OutOfOrder` exactly when the timestamp is smaller
than a previously accepted one; a rejected call produces no successor state, so
the engine value held by the caller is unchanged. -/
theorem ingest_out_of_order_iff (e : Engine) (x : List ℚ) (t : ℕ) :
    ingest e x t = .error .OutOfOrder ↔ ∃ t0, e.last_t = some t0 ∧ t < t0 := by
  rw [ingest]
  cases e.last_t with
  | none =>
    constructor
    · intro h
      cases h
    · rintro ⟨t0, h0, -⟩
      cases h0
  | some t0 =>
    dsimp only
    split_ifs with hlt
    · constructor
      · intro _
        exact ⟨t0, rfl, hlt⟩
      · intro _
        rfl
    · constructor
      · intro h
        cases h
      · rintro ⟨t1, h1, hlt1⟩
        injection h1 with h1
        rw [h1] at hlt
        exact absurd hlt1 hlt

theorem removeById_not_mem (i : ℕ) (l : List MicroCluster) (w : MicroCluster)
    (hw : w ∈ removeById i l) : w.id ≠ i := by
  rw [removeById] at hw
  have := (List.mem_filter.mp hw).2
  simpa using this

/-- C4: when an assimilation moves a microcluster's recomputed grid address
onto a cell occupied by another live microcluster, the one with the smaller
`t_start` absorbs the other: the merged microcluster has the elementwise sum of
both `LS`, the sum of both `n`, the maximum of both `t_last` and the older
`t_start`, and the younger microcluster's id is gone from the live population. -/
theorem merge_on_readdress (e : Engine) (x : List ℚ) (t : ℕ)
    (chosen other : MicroCluster)
    (hne : (readdressed e.ctx chosen x t).grid_addr ≠ chosen.grid_addr)
    (hfind : (livePool e).find? (fun w =>
        decide (w.id ≠ chosen.id) &&
          decide (w.grid_addr = (readdressed e.ctx chosen x t).grid_addr)) = some other) :
    (chosen.t_start ≤ other.t_start →
      (assimilateInto e chosen x t).1.A_list =
        removeById other.id
          (replaceById (mergeInto (readdressed e.ctx chosen x t) other) e.A_list) ∧
      (assimilateInto e chosen x t).1.O_list =
        removeById other.id
          (replaceById (mergeInto (readdressed e.ctx chosen x t) other) e.O_list) ∧
      (mergeInto (readdressed e.ctx chosen x t) other).LS =
        List.zipWith (· + ·) (readdressed e.ctx chosen x t).LS other.LS ∧
      (mergeInto (readdressed e.ctx chosen x t) other).n =
        (readdressed e.ctx chosen x t).n + other.n ∧
      (mergeInto (readdressed e.ctx chosen x t) other).t_last =
        max (readdressed e.ctx chosen x t).t_last other.t_last ∧
      (mergeInto (readdressed e.ctx chosen x t) other).t_start = chosen.t_start ∧
      ∀ w ∈ livePool (assimilateInto e chosen x t).1, w.id ≠ other.id) ∧
    (¬ chosen.t_start ≤ other.t_start →
      (assimilateInto e chosen x t).1.A_list =
        removeById chosen.id
          (replaceById (mergeInto other (readdressed e.ctx chosen x t)) e.A_list) ∧
      (assimilateInto e chosen x t).1.O_list =
        removeById chosen.id
          (replaceById (mergeInto other (readdressed e.ctx chosen x t)) e.O_list) ∧
      (mergeInto other (readdressed e.ctx chosen x t)).LS =
        List.zipWith (· + ·) other.LS (readdressed e.ctx chosen x t).LS ∧
      (mergeInto other (readdressed e.ctx chosen x t)).n =
        other.n + (readdressed e.ctx chosen x t).n ∧
      (mergeInto other (readdressed e.ctx chosen x t)).t_last =
        max other.t_last (readdressed e.ctx chosen x t).t_last ∧
      (mergeInto other (readdressed e.ctx chosen x t)).t_start = other.t_start ∧
      ∀ w ∈ livePool (assimilateInto e chosen x t).1, w.id ≠ chosen.id) := by
  have hts : (readdressed e.ctx chosen x t).t_start = chosen.t_start := rfl
  have hbody : assimilateInto e chosen x t =
      (let m := resolveMerge (readdressed e.ctx chosen x t) other
       ({ e with
          A_list := removeById m.2 (replaceById m.1 e.A_list),
          O_list := removeById m.2 (replaceById m.1 e.O_list) },
        m.1.id)) := by
    rw [assimilateInto]
    rw [if_neg hne]
    rw [hfind]
  constructor
  · intro hle
    have hm : resolveMerge (readdressed e.ctx chosen x t) other =
        (mergeInto (readdressed e.ctx chosen x t) other, other.id) := by
      rw [resolveMerge, hts, if_pos hle]
    rw [hbody]
    dsimp only
    rw [hm]
    refine ⟨rfl, rfl, rfl, rfl, rfl, hts, ?_⟩
    intro w hw
    rw [livePool] at hw
    rcases List.mem_append.mp hw with hw | hw
    · exact removeById_not_mem other.id _ w hw
    · exact removeById_not_mem other.id _ w hw
  · intro hlt
    have hm : resolveMerge (readdressed e.ctx chosen x t) other =
        (mergeInto other (readdressed e.ctx chosen x t), chosen.id) := by
      rw [resolveMerge, hts, if_neg hlt]
      rfl
    rw [hbody]
    dsimp only
    rw [hm]
    refine ⟨rfl, rfl, rfl, rfl, rfl, rfl, ?_⟩
    intro w hw
    rw [livePool] at hw
    rcases List.mem_append.mp hw with hw | hw
    · exact removeById_not_mem chosen.id _ w hw
    · exact removeById_not_mem chosen.id _ w hw

theorem notWorse_refl (x : List ℚ) (r : MicroCluster) : NotWorse x r r :=
  ⟨le_refl _, fun _ => le_refl _⟩

theorem closerCandidate_true {x : List ℚ} {v b : MicroCluster}
    (h : closerCandidate x v b = true) :
    dist2 v.center x < dist2 b.center x ∨
      (dist2 v.center x = dist2 b.center x ∧ v.t_start < b.t_start) := by
  rw [closerCandidate] at h
  simpa using h

theorem closerCandidate_false {x : List ℚ} {v b : MicroCluster}
    (h : ¬ closerCandidate x v b = true) : NotWorse x b v := by
  rw [closerCandidate] at h
  simp only [decide_eq_true_eq, not_or, not_and, not_lt] at h
  exact ⟨h.1, h.2⟩

theorem notWorse_of_closer {x : List ℚ} {r v b : MicroCluster}
    (hrv : NotWorse x r v) (hvb : closerCandidate x v b = true) : NotWorse x r b := by
  obtain ⟨h1, h2⟩ := hrv
  rcases closerCandidate_true hvb with h | ⟨he, ht⟩
  · refine ⟨le_of_lt (lt_of_le_of_lt h1 h), fun he2 => ?_⟩
    exact absurd (lt_of_le_of_lt h1 h) (by rw [he2]; exact lt_irrefl _)
  · refine ⟨le_trans h1 (le_of_eq he), fun he2 => ?_⟩
    have : dist2 v.center x = dist2 r.center x := by rw [he, he2]
    exact le_trans (h2 this) (le_of_lt ht)

theorem notWorse_trans {x : List ℚ} {r v b : MicroCluster}
    (hrv : NotWorse x r v) (hvb : NotWorse x v b) : NotWorse x r b := by
  obtain ⟨h1, h2⟩ := hrv
  obtain ⟨h3, h4⟩ := hvb
  refine ⟨le_trans h1 h3, fun he => ?_⟩
  have h5 : dist2 v.center x = dist2 r.center x := le_antisymm (he ▸ h3) h1
  have h6 : dist2 b.center x = dist2 v.center x := by rw [he, h5]
  exact le_trans (h2 h5) (h4 h6)

theorem foldl_select_spec (x : List ℚ) :
    ∀ (us : List MicroCluster) (b : MicroCluster),
      (us.foldl (fun best v => if closerCandidate x v best then v else best) b = b ∨
        us.foldl (fun best v => if closerCandidate x v best then v else best) b ∈ us) ∧
      NotWorse x (us.foldl (fun best v => if closerCandidate x v best then v else best) b) b ∧
      ∀ v ∈ us,
        NotWorse x (us.foldl (fun best v => if closerCandidate x v best then v else best) b) v := by
  intro us
  induction us with
  | nil =>
    intro b
    refine ⟨Or.inl rfl, notWorse_refl x b, ?_⟩
    intro v hv
    cases hv
  | cons v us ih =>
    intro b
    rw [List.foldl_cons]
    by_cases hc : closerCandidate x v b = true
    · rw [if_pos hc]
      obtain ⟨i1, i2, i3⟩ := ih v
      refine ⟨?_, ?_, ?_⟩
      · rcases i1 with h | h
        · exact Or.inr (by rw [h]; exact List.mem_cons_self v us)
        · exact Or.inr (List.mem_cons_of_mem v h)
      · exact notWorse_of_closer i2 hc
      · intro w hw
        rcases List.mem_cons.mp hw with hw | hw
        · rw [hw]
          exact i2
        · exact i3 w hw
    · rw [if_neg hc]
      obtain ⟨i1, i2, i3⟩ := ih b
      refine ⟨?_, i2, ?_⟩
      · rcases i1 with h | h
        · exact Or.inl h
        · exact Or.inr (List.mem_cons_of_mem v h)
      · intro w hw
        rcases List.mem_cons.mp hw with hw | hw
        · rw [hw]
          exact notWorse_trans i2 (closerCandidate_false hc)
        · exact i3 w hw

theorem selectCandidate_spec (x : List ℚ) (cands : List MicroCluster)
    (hne : cands ≠ []) :
    ∃ chosen, selectCandidate x cands = some chosen ∧ chosen ∈ cands ∧
      ∀ v ∈ cands,
        dist2 chosen.center x ≤ dist2 v.center x ∧
          (dist2 v.center x = dist2 chosen.center x → chosen.t_start ≤ v.t_start) := by
  cases cands with
  | nil => exact absurd rfl hne
  | cons u us =>
    obtain ⟨i1, i2, i3⟩ := foldl_select_spec x us u
    refine ⟨us.foldl (fun best v => if closerCandidate x v best then v else best) u,
      rfl, ?_, ?_⟩
    · rcases i1 with h | h
      · rw [h]
        exact List.mem_cons_self u us
      · exact List.mem_cons_of_mem u h
    · intro v hv
      rcases List.mem_cons.mp hv with hv | hv
      · rw [hv]
        exact i2
      · exact i3 v hv

theorem replaceById_mem (u : MicroCluster) (l : List MicroCluster) (w : MicroCluster)
    (hw : w ∈ replaceById u l) : w = u ∨ w ∈ l := by
  rw [replaceById] at hw
  rw [List.mem_map] at hw
  obtain ⟨w0, hw0, hweq⟩ := hw
  by_cases h : w0.id = u.id
  · rw [if_pos h] at hweq
    exact Or.inl hweq.symm
  · rw [if_neg h] at hweq
    exact Or.inr (hweq ▸ hw0)

theorem removeById_mem (i : ℕ) (l : List MicroCluster) (w : MicroCluster)
    (hw : w ∈ removeById i l) : w ∈ l :=
  (List.mem_filter.mp hw).1

theorem assimilateInto_no_new_id (e : Engine) (chosen : MicroCluster)
    (x : List ℚ) (t : ℕ) (hchosen : chosen ∈ livePool e) :
    ∀ w ∈ livePool (assimilateInto e chosen x t).1, ∃ w0 ∈ livePool e, w.id = w0.id := by
  have hread : (readdressed e.ctx chosen x t).id = chosen.id := rfl
  intro w hw
  rw [assimilateInto] at hw
  split_ifs at hw with haddr
  · rw [livePool] at hw
    rcases List.mem_append.mp hw with hw | hw <;>
      rcases replaceById_mem _ _ _ hw with h | h
    · exact ⟨chosen, hchosen, by rw [h]; exact hread⟩
    · exact ⟨w, List.mem_append_left _ h, rfl⟩
    · exact ⟨chosen, hchosen, by rw [h]; exact hread⟩
    · exact ⟨w, List.mem_append_right _ h, rfl⟩
  · rcases hfind : (livePool e).find? (fun w =>
        decide (w.id ≠ chosen.id) &&
          decide (w.grid_addr = (readdressed e.ctx chosen x t).grid_addr)) with
      - | other
    · rw [hfind] at hw
      rw [livePool] at hw
      rcases List.mem_append.mp hw with hw | hw <;>
        rcases replaceById_mem _ _ _ hw with h | h
      · exact ⟨chosen, hchosen, by rw [h]; exact hread⟩
      · exact ⟨w, List.mem_append_left _ h, rfl⟩
      · exact ⟨chosen, hchosen, by rw [h]; exact hread⟩
      · exact ⟨w, List.mem_append_right _ h, rfl⟩
    · rw [hfind] at hw
      have hother : other ∈ livePool e := List.mem_of_find?_eq_some hfind
      have hmid : (resolveMerge (readdressed e.ctx chosen x t) other).1.id = chosen.id ∨
          (resolveMerge (readdressed e.ctx chosen x t) other).1.id = other.id := by
        rw [resolveMerge]
        split_ifs
        · exact Or.inl rfl
        · exact Or.inr rfl
      rw [livePool] at hw
      rcases List.mem_append.mp hw with hw | hw <;>
        rcases replaceById_mem _ _ _ (removeById_mem _ _ _ hw) with h | h
      · rcases hmid with hid | hid
        · exact ⟨chosen, hchosen, by rw [h]; exact hid⟩
        · exact ⟨other, hother, by rw [h]; exact hid⟩
      · exact ⟨w, List.mem_append_left _ h, rfl⟩
      · rcases hmid with hid | hid
        · exact ⟨chosen, hchosen, by rw [h]; exact hid⟩
        · exact ⟨other, hother, by rw [h]; exact hid⟩
      · exact ⟨w, List.mem_append_right _ h, rfl⟩

/-- C3: for every ingested sample, if some live microcluster is reachable from
the sample's address then the sample is assimilated into the candidate whose
center minimizes the (squared) Euclidean distance, ties broken by older
`t_start`, and no microcluster with a fresh id appears; otherwise a brand-new
microcluster with `LS = x`, `n = 1`, `t_start = t_last = t`, Low-Density,
"Unclassed" and grid address `address(x)` is appended to `O`. -/
theorem distance_stage_dichotomy (e : Engine) (x : List ℚ) (t : ℕ) :
    (candidates e.ctx (livePool e) (e.ctx.address x) ≠ [] →
      ∃ chosen,
        selectCandidate x (candidates e.ctx (livePool e) (e.ctx.address x)) = some chosen ∧
        chosen ∈ candidates e.ctx (livePool e) (e.ctx.address x) ∧
        (∀ v ∈ candidates e.ctx (livePool e) (e.ctx.address x),
          dist2 chosen.center x ≤ dist2 v.center x ∧
            (dist2 v.center x = dist2 chosen.center x → chosen.t_start ≤ v.t_start)) ∧
        distanceStageCore e x t = assimilateInto e chosen x t ∧
        (∀ w ∈ livePool (distanceStageCore e x t).1, ∃ w0 ∈ livePool e, w.id = w0.id)) ∧
    (candidates e.ctx (livePool e) (e.ctx.address x) = [] →
      distanceStageCore e x t =
        ({ e with
            O_list := e.O_list ++
              [⟨e.next_id, 1, x, t, t, .LowDensity, none, e.ctx.address x⟩]
            next_id := e.next_id + 1 },
          e.next_id)) := by
  constructor
  · intro hne
    obtain ⟨chosen, hsel, hmem, hmin⟩ :=
      selectCandidate_spec x (candidates e.ctx (livePool e) (e.ctx.address x)) hne
    have hcore : distanceStageCore e x t = assimilateInto e chosen x t := by
      rw [distanceStageCore, hsel]
    refine ⟨chosen, hsel, hmem, hmin, hcore, ?_⟩
    rw [hcore]
    exact assimilateInto_no_new_id e chosen x t
      ((List.mem_filter.mp hmem).1)
  · intro hemp
    rw [distanceStageCore, hemp]
    rfl

theorem snapTier_le (alpha cap t : ℕ) : snapTier alpha cap t ≤ cap := by
  rw [snapTier]
  have haux : ∀ (r : List ℕ) (a : ℕ), a ≤ cap → (∀ l ∈ r, l ≤ cap) →
      r.foldl (fun acc l => if t % alpha ^ l = 0 then l else acc) a ≤ cap := by
    intro r
    induction r with
    | nil =>
      intro a ha _
      exact ha
    | cons z zs ih =>
      intro a ha hr
      rw [List.foldl_cons]
      apply ih
      · split_ifs
        · exact hr z (List.mem_cons_self z zs)
        · exact ha
      · intro l hl
        exact hr l (List.mem_cons_of_mem z hl)
  apply haux
  · omega
  · intro l hl
    have := List.mem_range.mp hl
    omega

theorem tierCount_cons (l : ℕ) (en : SnapshotEntry) (s : List SnapshotEntry) :
    tierCount l (en :: s) = tierCount l s + (if en.order = l then 1 else 0) := by
  rw [tierCount, tierCount, List.countP_cons]
  by_cases h : en.order = l <;> simp [h]

theorem tierCount_append_one (l : ℕ) (s : List SnapshotEntry) (en : SnapshotEntry) :
    tierCount l (s ++ [en]) = tierCount l s + (if en.order = l then 1 else 0) := by
  rw [tierCount, tierCount, List.countP_append]
  congr 1
  rw [show List.countP (fun s => decide (s.order = l)) [en] =
    tierCount l [en] from rfl]
  rw [tierCount_cons]
  rw [show tierCount l ([] : List SnapshotEntry) = 0 from rfl, Nat.zero_add]

theorem tierCount_dropOldest_self (l : ℕ) (s : List SnapshotEntry) :
    tierCount l (dropOldest l s) = tierCount l s - 1 := by
  induction s with
  | nil => rfl
  | cons en rest ih =>
    rw [dropOldest]
    split_ifs with h
    · rw [tierCount_cons, if_pos h]
      omega
    · rw [tierCount_cons, tierCount_cons, if_neg h, ih]
      omega

theorem tierCount_dropOldest_le (l l' : ℕ) (s : List SnapshotEntry) :
    tierCount l' (dropOldest l s) ≤ tierCount l' s := by
  induction s with
  | nil => exact le_refl _
  | cons en rest ih =>
    rw [dropOldest]
    split_ifs with h
    · rw [tierCount_cons]
      omega
    · rw [tierCount_cons, tierCount_cons]
      omega

theorem dropOldest_subset (l : ℕ) (s : List SnapshotEntry) (en : SnapshotEntry)
    (he : en ∈ dropOldest l s) : en ∈ s := by
  induction s with
  | nil => cases he
  | cons e0 rest ih =>
    rw [dropOldest] at he
    split_ifs at he with h
    · exact List.mem_cons_of_mem e0 he
    · rcases List.mem_cons.mp he with he | he
      · exact he ▸ List.mem_cons_self e0 rest
      · exact List.mem_cons_of_mem e0 (ih he)

theorem snapInsert_ok (alpha cap t : ℕ) (fin all : List MicroCluster)
    (s : List SnapshotEntry) (hs : StoreOk alpha cap s) :
    StoreOk alpha cap (snapInsert alpha cap t fin all s) := by
  obtain ⟨h1, h2⟩ := hs
  rw [snapInsert]
  have horders : ∀ en ∈ s ++ [(⟨snapTier alpha cap t, t, fin, all⟩ : SnapshotEntry)],
      en.order ≤ cap := by
    intro en hen
    rcases List.mem_append.mp hen with h | h
    · exact h1 en h
    · rw [List.mem_singleton] at h
      rw [h]
      exact snapTier_le alpha cap t
  split_ifs with hover
  · constructor
    · intro en hen
      exact horders en (dropOldest_subset _ _ en hen)
    · intro l
      by_cases hl : l = snapTier alpha cap t
      · rw [hl, tierCount_dropOldest_self, tierCount_append_one, if_pos rfl]
        have := h2 (snapTier alpha cap t)
        omega
      · calc tierCount l (dropOldest (snapTier alpha cap t)
              (s ++ [⟨snapTier alpha cap t, t, fin, all⟩])) ≤
            tierCount l (s ++ [⟨snapTier alpha cap t, t, fin, all⟩]) :=
              tierCount_dropOldest_le _ _ _
          _ ≤ tierCap alpha l := by
              rw [tierCount_append_one, if_neg (fun he => hl he.symm)]
              have := h2 l
              omega
  · refine ⟨horders, ?_⟩
    intro l
    by_cases hl : l = snapTier alpha cap t
    · rw [hl]
      omega
    · rw [tierCount_append_one, if_neg (fun he => hl he.symm)]
      have := h2 l
      omega

theorem foldl_snapInsert_ok (alpha cap : ℕ)
    (ts : List (ℕ × List MicroCluster × List MicroCluster)) :
    ∀ s, StoreOk alpha cap s →
      StoreOk alpha cap
        (ts.foldl (fun s p => snapInsert alpha cap p.1 p.2.1 p.2.2 s) s) := by
  induction ts with
  | nil =>
    intro s hs
    exact hs
  | cons p ps ih =>
    intro s hs
    rw [List.foldl_cons]
    exact ih _ (snapInsert_ok alpha cap p.1 p.2.1 p.2.2 s hs)

theorem sum_map_addN (f g : ℕ → ℕ) (l : List ℕ) :
    (l.map (fun x => f x + g x)).sum = (l.map f).sum + (l.map g).sum := by
  induction l with
  | nil => rfl
  | cons a l ih =>
    rw [List.map_cons, List.map_cons, List.map_cons, List.sum_cons, List.sum_cons,
      List.sum_cons, ih]
    omega

theorem sum_indicator_range (n m : ℕ) (hm : m < n) :
    ((List.range n).map (fun l => if m = l then 1 else 0)).sum = 1 := by
  induction n with
  | zero => omega
  | succ n ih =>
    rw [List.range_succ, List.map_append, List.sum_append]
    by_cases h : m = n
    · have hz : ((List.range n).map (fun l => if m = l then 1 else 0)).sum = 0 := by
        apply List.sum_eq_zero
        intro x hx
        rw [List.mem_map] at hx
        obtain ⟨l, hl, rfl⟩ := hx
        rw [if_neg]
        intro he
        have := List.mem_range.mp hl
        omega
      rw [hz]
      simp [h]
    · have hmn : m < n := by omega
      rw [ih hmn]
      simp [h]

theorem length_le_sum_tierCount (cap : ℕ) (s : List SnapshotEntry)
    (h : ∀ en ∈ s, en.order ≤ cap) :
    s.length ≤ ((List.range (cap + 1)).map (fun l => tierCount l s)).sum := by
  induction s with
  | nil => simp
  | cons en rest ih =>
    have hrest := ih (fun x hx => h x (List.mem_cons_of_mem en hx))
    have hcnt : (fun l => tierCount l (en :: rest)) =
        (fun l => tierCount l rest + (if en.order = l then 1 else 0)) := by
      funext l
      exact tierCount_cons l en rest
    rw [List.length_cons, hcnt, sum_map_addN,
      sum_indicator_range (cap + 1) en.order
        (by have := h en (List.mem_cons_self en rest); omega)]
    omega

/-- C9 (amended bound): fed any sequence of capture timestamps, the pyramidal
snapshot store never holds more than `Σ_{ℓ=0}^{L} (α^ℓ + 1)` entries. -/
theorem snapshot_capacity_bound (alpha cap : ℕ)
    (ts : List (ℕ × List MicroCluster × List MicroCluster)) :
    (ts.foldl (fun s p => snapInsert alpha cap p.1 p.2.1 p.2.2 s) []).length ≤
      ((List.range (cap + 1)).map (tierCap alpha)).sum := by
  have hok : StoreOk alpha cap
      (ts.foldl (fun s p => snapInsert alpha cap p.1 p.2.1 p.2.2 s) []) := by
    apply foldl_snapInsert_ok
    constructor
    · intro en hen
      cases hen
    · intro l
      rw [tierCount]
      simp [tierCap]
  refine le_trans (length_le_sum_tierCount cap _ hok.1) ?_
  apply List.sum_le_sum
  intro l _
  exact hok.2 l

/-- C9 counterexample: with base `α = 2` and order cap `L = 1`, snapshots taken
at timestamps 0,1,2,3,4,5 (the density-stage timestamps produced by ingesting
6 samples with `t_global = 1`) leave the store with 5 entries, exceeding the
claimed total bound `L·(α+1) = 3`. -/
theorem snapshot_capacity_counterexample :
    (((List.range 6).map (fun t => (t, ([] : List MicroCluster),
        ([] : List MicroCluster)))).foldl
      (fun s p => snapInsert 2 1 p.1 p.2.1 p.2.2 s) []).length = 5 ∧
    ¬((((List.range 6).map (fun t => (t, ([] : List MicroCluster),
        ([] : List MicroCluster)))).foldl
      (fun s p => snapInsert 2 1 p.1 p.2.1 p.2.2 s) []).length ≤ 1 * (2 + 1)) := by
  decide

theorem runLoop_fst (X : List (List ℚ)) :
    ∀ (e : Engine) (t0 : ℕ),
      (runLoop e X t0).1 =
        (X.zip (List.range' t0 X.length)).foldl
          (fun acc p => (ingestStep acc p.1 p.2).1) e := by
  induction X with
  | nil =>
    intro e t0
    rfl
  | cons x xs ih =>
    intro e t0
    rw [runLoop]
    rw [List.length_cons, List.range'_succ, List.zip_cons_cons, List.foldl_cons]
    exact ih (ingestStep e x t0).1 (t0 + 1)

theorem runLoop_snd_length (X : List (List ℚ)) :
    ∀ (e : Engine) (t0 : ℕ), (runLoop e X t0).2.length = X.length := by
  induction X with
  | nil =>
    intro e t0
    rfl
  | cons x xs ih =>
    intro e t0
    rw [runLoop]
    rw [List.length_cons, List.length_cons, ih]

theorem runLoop_snd_getD (X : List (List ℚ)) :
    ∀ (e : Engine) (t0 i : ℕ), i < X.length →
      (runLoop e X t0).2.getD i 0 =
        (ingestStep (runLoop e (X.take i) t0).1 (X.getD i []) (t0 + i)).2 := by
  induction X with
  | nil =>
    intro e t0 i hi
    cases hi
  | cons x xs ih =>
    intro e t0 i hi
    cases i with
    | zero =>
      rw [runLoop]
      rfl
    | succ i =>
      rw [runLoop]
      have hlt : i < xs.length := by
        rw [List.length_cons] at hi
        omega
      have := ih (ingestStep e x t0).1 (t0 + 1) i hlt
      rw [show ((runLoop (ingestStep e x t0).1 xs (t0 + 1)).1,
        (ingestStep e x t0).2 :: (runLoop (ingestStep e x t0).1 xs (t0 + 1)).2).2 =
        (ingestStep e x t0).2 :: (runLoop (ingestStep e x t0).1 xs (t0 + 1)).2 from rfl]
      rw [List.getD_cons_succ, this]
      rw [show (x :: xs).take (i + 1) = x :: xs.take i from rfl]
      rw [show (x :: xs).getD (i + 1) [] = xs.getD i [] from rfl]
      rw [runLoop]
      have harg : t0 + 1 + i = t0 + (i + 1) := by omega
      rw [harg]

theorem run_dataset_length (e : Engine) (X : List (List ℚ)) :
    (run_dataset e X).1.length = X.length := by
  rw [run_dataset]
  dsimp only
  rw [List.length_map, runLoop_snd_length]

/-- C7: `run_dataset` ingests the rows of `X` at timestamps `0 .. |X|−1` in
order, runs a final density stage, and returns one label per input sample: the
final-cluster label (via id lookup in the final live population) of the
microcluster that absorbed that sample, `none` being the "Unclassed" sentinel
when that microcluster has no final label at stream end. -/
theorem run_dataset_spec (e : Engine) (X : List (List ℚ)) :
    (run_dataset e X).1.length = X.length ∧
    (run_dataset e X).2 =
      densityStageE ((X.zip (List.range' 0 X.length)).foldl
        (fun acc p => (ingestStep acc p.1 p.2).1) e) ∧
    ∀ i, i < X.length →
      (run_dataset e X).1.getD i none =
        resolveLabel (livePool (run_dataset e X).2)
          ((ingestStep (((X.take i).zip (List.range' 0 i)).foldl
              (fun acc p => (ingestStep acc p.1 p.2).1) e) (X.getD i []) i).2) := by
  refine ⟨run_dataset_length e X, ?_, ?_⟩
  · rw [run_dataset]
    dsimp only
    rw [runLoop_fst]
  · intro i hi
    have hlen : (runLoop e X 0).2.length = X.length := runLoop_snd_length X e 0
    have hmap : (run_dataset e X).1 =
        (runLoop e X 0).2.map
          (fun j => resolveLabel (livePool (densityStageE (runLoop e X 0).1)) j) := rfl
    have hfinal : (run_dataset e X).2 = densityStageE (runLoop e X 0).1 := rfl
    rw [hmap, hfinal]
    have hgetd : ((runLoop e X 0).2.map
        (fun j => resolveLabel (livePool (densityStageE (runLoop e X 0).1)) j)).getD i none =
        resolveLabel (livePool (densityStageE (runLoop e X 0).1))
          ((runLoop e X 0).2.getD i 0) := by
      have hi2 : i < (runLoop e X 0).2.length := by omega
      rw [List.getD_eq_getElem _ none (by rw [List.length_map]; omega),
        List.getElem_map, List.getD_eq_getElem _ 0 hi2]
    rw [hgetd, runLoop_snd_getD X e 0 i hi]
    rw [show (0 : ℕ) + i = i from by omega]
    have htake : (X.take i).length = i := by
      rw [List.length_take]
      omega
    rw [runLoop_fst (X.take i) e 0, htake]

theorem normalize_inverse (ls : List ℚ) :
    ∀ (rs vs : List ℚ), rs.length = ls.length → vs.length = ls.length →
      (∀ r ∈ rs, r ≠ 0) →
      denormalizeGo ls rs (normalizeGo ls rs vs) = vs := by
  induction ls with
  | nil =>
    intro rs vs h1 h2 _
    rw [List.length_nil, List.length_eq_zero] at h1 h2
    rw [h1, h2]
    rfl
  | cons l ls ih =>
    intro rs vs h1 h2 hr
    cases rs with
    | nil => cases h1
    | cons r rs =>
      cases vs with
      | nil => cases h2
      | cons v vs =>
        rw [normalizeGo, denormalizeGo]
        have hrne : r ≠ 0 := hr r (List.mem_cons_self r rs)
        have hhead : (v - l) / r * r + l = v := by
          field_simp
        rw [hhead, ih rs vs (by simpa using h1) (by simpa using h2)
          (fun w hw => hr w (List.mem_cons_of_mem r hw))]

/-- C10: the constructor receives `context` as a 2×d matrix of per-dimension
minima and maxima, but the engine's context carries an additional row of
per-dimension ranges at index 2, and a stored (normalized) center is mapped
back to raw space exactly by the caller's formula
`center * context[2] + context[0]`; reading a center directly yields the
normalized value, not the raw one. -/
theorem normalized_center_recovery (lo hi : List ℚ) (hlen : lo.length = hi.length)
    (hr : ∀ r ∈ List.zipWith (fun h l => h - l) hi lo, r ≠ 0) :
    (engineContext lo hi).length = 3 ∧
    (engineContext lo hi).getD 0 [] = lo ∧
    (engineContext lo hi).getD 2 [] = List.zipWith (fun h l => h - l) hi lo ∧
    ∀ cRaw : List ℚ, cRaw.length = lo.length →
      denormalizeGo lo (List.zipWith (fun h l => h - l) hi lo)
        (normalizeGo lo (List.zipWith (fun h l => h - l) hi lo) cRaw) = cRaw := by
  refine ⟨rfl, rfl, rfl, ?_⟩
  intro cRaw hc
  exact normalize_inverse lo (List.zipWith (fun h l => h - l) hi lo) cRaw
    (by rw [List.length_zipWith, hlen, Nat.min_self]) hc hr

theorem exCtx_volume : exCtx.volume = 1 := by
  simp [GridContext.volume, GridContext.side, exCtx]

theorem classifyStep_exA : classifyStep 1 [exA] = [exDense] := by
  have hcd : classifyDensity (density 1 exA)
      (meanD [density 1 exA]) (dHi [density 1 exA]) = .Dense := by
    rw [classifyDensity, if_pos]
    norm_num [dHi, meanD, maxD, density, exA]
  rw [classifyStep]
  simp only [List.map_cons, List.map_nil]
  rw [hcd]
  rfl

theorem activeList_exA : activeList exCtx [exA] = [exDense] := by
  rw [activeList, exCtx_volume, classifyStep_exA]
  rfl

theorem densityStage_exA_label :
    (((densityStage exCtx [exA]).1).getD 0 default).Classk = some 1 := by
  rw [densityStage_fst, activeList_exA, exCtx_volume]
  rw [getD_applyLabels [exDense] _ 0 (by simp)]
  show labelStage exCtx 1 [exDense] 0 = some 1
  rfl

/-- Witness for C2 at a concrete input: a single Dense microcluster receives
label 1 and the singleton path `[0]` joins it to itself. -/
theorem label_propagation_face_connected_witness :
    ((((densityStage exCtx [exA]).1).getD 0 default).Classk = some 1) ∧
    ∃ p : List ℕ, p.head? = some 0 ∧ p.getLast? = some 0 ∧
      (∀ m ∈ p, m < (densityStage exCtx [exA]).1.length ∧
        (((densityStage exCtx [exA]).1).getD m default).Classk = some 1) ∧
      List.Chain' (fun a b =>
        exCtx.direct (((densityStage exCtx [exA]).1).getD a default).grid_addr
          (((densityStage exCtx [exA]).1).getD b default).grid_addr = true) p ∧
      ∃ m ∈ p, (((densityStage exCtx [exA]).1).getD m default).density_type = .Dense :=
  ⟨densityStage_exA_label,
    label_propagation_face_connected exCtx [exA] 0 0 1
      densityStage_exA_label densityStage_exA_label⟩

theorem readdressed_exA_addr :
    (readdressed exE.ctx exA [(10:ℚ)] 2).grid_addr = [(5:ℤ)] := by
  simp only [readdressed, MicroCluster.assimilate, MicroCluster.center, exE, exCtx, exA,
    GridContext.address, GridContext.side, addressGo, addressDim,
    List.zipWith_cons_cons, List.zipWith_nil_right, List.zipWith_nil_left,
    List.map_cons, List.map_nil]
  norm_num

theorem find_collision_exB :
    (livePool exE).find? (fun w =>
      decide (w.id ≠ exA.id) &&
        decide (w.grid_addr = (readdressed exE.ctx exA [(10:ℚ)] 2).grid_addr)) = some exB := by
  simp only [readdressed_exA_addr]
  rfl

/-- Witness for C4 at a concrete input: assimilating the sample `[10]` at `t=2`
moves `exA`'s recomputed address onto `exB`'s cell; the older `exA` absorbs the
younger `exB`, whose id disappears from the live population. -/
theorem merge_on_readdress_witness :
    ((readdressed exE.ctx exA [(10:ℚ)] 2).grid_addr ≠ exA.grid_addr) ∧
    ((livePool exE).find? (fun w =>
      decide (w.id ≠ exA.id) &&
        decide (w.grid_addr = (readdressed exE.ctx exA [(10:ℚ)] 2).grid_addr)) = some exB) ∧
    exA.t_start ≤ exB.t_start ∧
    (mergeInto (readdressed exE.ctx exA [(10:ℚ)] 2) exB).n =
      (readdressed exE.ctx exA [(10:ℚ)] 2).n + exB.n ∧
    (mergeInto (readdressed exE.ctx exA [(10:ℚ)] 2) exB).t_start = exA.t_start ∧
    ∀ w ∈ livePool (assimilateInto exE exA [(10:ℚ)] 2).1, w.id ≠ exB.id := by
  have hne4 : (readdressed exE.ctx exA [(10:ℚ)] 2).grid_addr ≠ exA.grid_addr := by
    rw [readdressed_exA_addr]
    simp [exA]
  have hle : exA.t_start ≤ exB.t_start := by
    simp [exA, exB]
  have hmain := (merge_on_readdress exE [(10:ℚ)] 2 exA exB hne4 find_collision_exB).1 hle
  exact ⟨hne4, find_collision_exB, hle, hmain.2.2.2.1, hmain.2.2.2.2.2.1,
    hmain.2.2.2.2.2.2⟩

/-- Witness for C10 at a concrete input: with `lo = [0]`, `hi = [2]` the
context gains the range row `[2]` and the caller's recovery formula inverts
the normalization of the raw center `[1]`. -/
theorem normalized_center_recovery_witness :
    (([(0:ℚ)] : List ℚ).length = ([(2:ℚ)] : List ℚ).length) ∧
    (∀ r ∈ List.zipWith (fun h l => h - l) ([(2:ℚ)] : List ℚ) ([(0:ℚ)] : List ℚ), r ≠ 0) ∧
    (engineContext [(0:ℚ)] [(2:ℚ)]).length = 3 ∧
    denormalizeGo [(0:ℚ)] (List.zipWith (fun h l => h - l) ([(2:ℚ)] : List ℚ) [(0:ℚ)])
      (normalizeGo [(0:ℚ)] (List.zipWith (fun h l => h - l) ([(2:ℚ)] : List ℚ) [(0:ℚ)])
        [(1:ℚ)]) = [(1:ℚ)] := by
  have h1 : (([(0:ℚ)] : List ℚ).length = ([(2:ℚ)] : List ℚ).length) := rfl
  have h2 : ∀ r ∈ List.zipWith (fun h l => h - l) ([(2:ℚ)] : List ℚ) ([(0:ℚ)] : List ℚ),
      r ≠ 0 := by
    intro r hr
    simp only [List.zipWith_cons_cons, List.zipWith_nil_right, List.mem_singleton] at hr
    rw [hr]
    norm_num
  have hmain := normalized_center_recovery [(0:ℚ)] [(2:ℚ)] h1 h2
  exact ⟨h1, h2, hmain.1, hmain.2.2.2 [(1:ℚ)] rfl⟩

theorem candidates_exE :
    candidates exE.ctx (livePool exE) (exE.ctx.address [(0:ℚ)]) = [exA] := by
  have haddr : exE.ctx.address [(0:ℚ)] = [(0:ℤ)] := by
    simp only [exE, exCtx, GridContext.address, GridContext.side, addressGo, addressDim,
      List.zipWith_cons_cons, List.zipWith_nil_right, List.zipWith_nil_left]
    norm_num
  rw [haddr]
  rfl

/-- Witness for C3 at a concrete input: the sample `[0]` at `t = 3` has the
single reachable candidate `exA`, which is selected and assimilated. -/
theorem distance_stage_dichotomy_witness :
    (candidates exE.ctx (livePool exE) (exE.ctx.address [(0:ℚ)]) ≠ []) ∧
    ∃ chosen,
      selectCandidate [(0:ℚ)] (candidates exE.ctx (livePool exE)
        (exE.ctx.address [(0:ℚ)])) = some chosen ∧
      chosen ∈ candidates exE.ctx (livePool exE) (exE.ctx.address [(0:ℚ)]) ∧
      (∀ v ∈ candidates exE.ctx (livePool exE) (exE.ctx.address [(0:ℚ)]),
        dist2 chosen.center [(0:ℚ)] ≤ dist2 v.center [(0:ℚ)] ∧
          (dist2 v.center [(0:ℚ)] = dist2 chosen.center [(0:ℚ)] →
            chosen.t_start ≤ v.t_start)) ∧
      distanceStageCore exE [(0:ℚ)] 3 = assimilateInto exE chosen [(0:ℚ)] 3 ∧
      (∀ w ∈ livePool (distanceStageCore exE [(0:ℚ)] 3).1,
        ∃ w0 ∈ livePool exE, w.id = w0.id) := by
  have hne : candidates exE.ctx (livePool exE) (exE.ctx.address [(0:ℚ)]) ≠ [] := by
    rw [candidates_exE]
    simp
  exact ⟨hne, (distance_stage_dichotomy exE [(0:ℚ)] 3).1 hne⟩

/-- Witness for C7 at a concrete input: a one-sample dataset. -/
theorem run_dataset_spec_witness :
    (run_dataset exE [[(0:ℚ)]]).1.length = 1 ∧
    (run_dataset exE [[(0:ℚ)]]).1.getD 0 none =
      resolveLabel (livePool (run_dataset exE [[(0:ℚ)]]).2)
        ((ingestStep (((([[(0:ℚ)]] : List (List ℚ)).take 0).zip (List.range' 0 0)).foldl
            (fun acc p => (ingestStep acc p.1 p.2).1) exE)
          (([[(0:ℚ)]] : List (List ℚ)).getD 0 []) 0).2) := by
  refine ⟨?_, (run_dataset_spec exE [[(0:ℚ)]]).2.2 0 (by norm_num)⟩
  have := (run_dataset_spec exE [[(0:ℚ)]]).1
  simpa using this
